import Mathlib

set_option maxRecDepth 4000

/-!
Shallow embedding of the bit-level file writer (src/write.rs) and the
concurrency sizer (src/parallelism.rs) of the Zip repository, together with
the spec-modelled reader dual, and proofs about the claims of the
specification.

The file sink (`File`) is modelled as the ordered list of byte chunks passed
to `file.write`; `persistLog` additionally records the value of
`bit_position` at each `persist_buffer` call (ghost instrumentation that does
not influence any behavior).  Machine integers are modelled as `Nat` with
explicit truncation (`% 256`, `% 2 ^ 64`) exactly where the source narrows.
-/

/-- Total list indexing with default 0, used to model in-bounds array
indexing `buffer[i]` of the source (all reachable indices are in bounds). -/
def nth : List Nat → Nat → Nat
  | [], _ => 0
  | b :: _, 0 => b
  | _ :: t, n + 1 => nth t n

/-- Flattening of the chunk list, i.e. the byte stream the sink received. -/
def flat : List (List Nat) → List Nat
  | [] => []
  | c :: cs => c ++ flat cs

/-- Modelled from the spec: `bitwise::get_bit` (bitwise.rs is not under
src/); returns the pos-th least-significant bit of num, i.e.
`(num >> pos) & 1`. -/
def get_bit (num pos : Nat) : Nat := num / 2 ^ pos % 2

/-- Modelled from the spec: `bitwise::set_bit` (bitwise.rs is not under
src/); returns `num | (1 << pos)`. -/
def set_bit (num pos : Nat) : Nat := num ||| 2 ^ pos

/-- Modelled from the spec and the usage in write.rs: `SymbolCode` (its
defining module is not under src/): a right-justified bit pattern
`encoded_symbol` together with its bit length `bit_len`. -/
structure SymbolCode where
  encoded_symbol : Nat
  bit_len : Nat
deriving Repr, DecidableEq

/-- Sub-record of `FileBlock` holding the two encoded sizes, as accessed via
`block.fbs` in write.rs. -/
structure FileBlockSizes where
  tree_bit_size : Nat
  data_bit_size : Nat
deriving Repr, DecidableEq

/-- Modelled from the spec and the usage in write.rs: `FileBlock` (the
ArchiveBlock header; its defining module data.rs is not under src/).
`filename_rel` is the list of Unicode scalar values of the filename text. -/
structure FileBlock where
  filename_rel : List Nat
  fbs : FileBlockSizes
  file_byte_offset : Nat
  og_byte_size : Nat
deriving Repr, DecidableEq

def BUFFER_LEN : Nat := 4096

def BUFFER_BIT_LEN : Nat := BUFFER_LEN * 8

/-- The `FileWriter` state of src/write.rs.  `flushes` is the modelled file
sink (chunks passed to `file.write`, in order); `persistLog` is ghost
instrumentation recording `bit_position` at each `persist_buffer` call. -/
structure FileWriter where
  buffer : List Nat
  bit_position : Nat
  flushes : List (List Nat)
  persistLog : List Nat
deriving Repr, DecidableEq

/-- `FileWriter::new`: zeroed buffer, cursor 0, nothing written yet. -/
def freshWriter : FileWriter :=
  { buffer := List.replicate BUFFER_LEN 0, bit_position := 0,
    flushes := [], persistLog := [] }

/-- `FileWriter::persist_buffer`: writes `buffer[0 .. bit_position / 8]` to
the file. -/
def persist_buffer (st : FileWriter) : FileWriter :=
  { st with flushes := st.flushes ++ [st.buffer.take (st.bit_position / 8)],
            persistLog := st.persistLog ++ [st.bit_position] }

/-- `FileWriter::update_buffer`: if at the end of the buffer, persist the
current buffer and start writing on a new one. -/
def update_buffer (st : FileWriter) : FileWriter :=
  if st.bit_position ≥ BUFFER_BIT_LEN then
    { persist_buffer st with
        bit_position := 0
        buffer := List.replicate BUFFER_LEN 0 }
  else st

/-- The part of `write_bit` after `update_buffer`: place the bit into the
buffer and advance the cursor by one. -/
def place_bit (bit : Nat) (s : FileWriter) : FileWriter :=
  let s2 := if bit > 0 then
      { s with
          buffer := s.buffer.set (s.bit_position / 8)
            (set_bit (nth s.buffer (s.bit_position / 8)) (s.bit_position % 8)) }
    else s
  { s2 with bit_position := s2.bit_position + 1 }

/-- `BitwiseWriter::write_bit` for `FileWriter`. -/
def write_bit (bit : Nat) (st : FileWriter) : FileWriter :=
  place_bit bit (update_buffer st)

/-- The part of `write_byte` after `update_buffer`: write the byte directly
into the buffer and advance the cursor by eight. -/
def place_byte (byte : Nat) (s : FileWriter) : FileWriter :=
  { s with buffer := s.buffer.set (s.bit_position / 8) byte,
           bit_position := s.bit_position + 8 }

/-- `BitwiseWriter::write_byte` for `FileWriter`. -/
def write_byte (byte : Nat) (st : FileWriter) : FileWriter :=
  place_byte byte (update_buffer st)

/-- `BitwiseWriter::align_to_byte`: `bit_position = ((pos + 7) / 8) * 8`. -/
def align_to_byte (st : FileWriter) : FileWriter :=
  { st with bit_position := (st.bit_position + 7) / 8 * 8 }

/-- `BitwiseWriter::write_bits`: each of the low `count` bits individually,
least significant first. -/
def write_bits (byte count : Nat) (st : FileWriter) : FileWriter :=
  (List.range count).foldl (fun s i => write_bit (get_bit byte i) s) st

/-- `BitwiseWriter::write_symbol`: `bit_len` bits of the pattern, least
significant first. -/
def write_symbol (symbol : SymbolCode) (st : FileWriter) : FileWriter :=
  (List.range symbol.bit_len).foldl
    (fun s i => write_bit (get_bit symbol.encoded_symbol i) s) st

/-- Modelled from the source `mem::transmute::<u64, [u8; 8]>` in
`write_u64`: the eight bytes of the value in platform memory order; the
parameter `le` selects a little-endian platform (`true`) or a big-endian
platform (`false`). -/
def u64TransmuteBytes (le : Bool) (num : Nat) : List Nat :=
  let leBytes := (List.range 8).map fun i => num / 2 ^ (8 * i) % 256
  if le then leBytes else leBytes.reverse

/-- `BitwiseWriter::write_u64`: the eight transmuted bytes, via eight
`write_byte` calls. -/
def write_u64 (le : Bool) (num : Nat) (st : FileWriter) : FileWriter :=
  (u64TransmuteBytes le num).foldl (fun s b => write_byte b s) st

/-- `BitwiseWriter::write_block`: the filename characters (each narrowed by
`as u8`, i.e. `% 256`) then a null terminator, then the four u64 fields. -/
def write_block (le : Bool) (block : FileBlock) (st : FileWriter) : FileWriter :=
  let s1 := block.filename_rel.foldl (fun s c => write_byte (c % 256) s) st
  let s2 := write_byte 0 s1
  let s3 := write_u64 le block.fbs.tree_bit_size s2
  let s4 := write_u64 le block.fbs.data_bit_size s3
  let s5 := write_u64 le block.file_byte_offset s4
  write_u64 le block.og_byte_size s5

/-- `Drop for FileWriter`: one final `persist_buffer` on release. -/
def dropWriter (st : FileWriter) : FileWriter := persist_buffer st

/-- The byte stream the sink holds after the writer is dropped. -/
def finalStream (st : FileWriter) : List Nat := flat (dropWriter st).flushes

/-- The worker-count computation of `configure_thread_pool`
(src/parallelism.rs): `if multithreaded { file_count.min(hw) } else { 1 }`,
where `hw` is the result of `available_parallelism()`. -/
def choose_worker_count (multithreaded : Bool)
    (file_count hardware_concurrency : Nat) : Nat :=
  if multithreaded then min file_count hardware_concurrency else 1

/-! Fallible variants for the error-path claims: the sink write inside
`persist_buffer` either succeeds (`ok = true`) or fails.  Rust propagates
the error with `?`, leaving the writer fields untouched; the `error`
constructor carries the writer state visible to the caller at that point. -/

/-- `persist_buffer` with a fallible sink write. -/
def persist_bufferE (ok : Bool) (st : FileWriter) : Except FileWriter FileWriter :=
  if ok then .ok (persist_buffer st) else .error st

/-- `update_buffer` with a fallible sink write: the cursor reset and buffer
clearing happen only after a successful persist. -/
def update_bufferE (ok : Bool) (st : FileWriter) : Except FileWriter FileWriter :=
  if st.bit_position ≥ BUFFER_BIT_LEN then
    match persist_bufferE ok st with
    | .error s => .error s
    | .ok s => .ok { s with
                       bit_position := 0
                       buffer := List.replicate BUFFER_LEN 0 }
  else .ok st

/-- `write_bit` with a fallible sink write. -/
def write_bitE (ok : Bool) (bit : Nat) (st : FileWriter) :
    Except FileWriter FileWriter :=
  match update_bufferE ok st with
  | .error s => .error s
  | .ok s => .ok (place_bit bit s)

/-- `write_byte` with a fallible sink write. -/
def write_byteE (ok : Bool) (byte : Nat) (st : FileWriter) :
    Except FileWriter FileWriter :=
  match update_bufferE ok st with
  | .error s => .error s
  | .ok s => .ok (place_byte byte s)

/-- Value of a digit list, least-significant digit first, in base B. -/
def assembleBase (B : Nat) : List Nat → Nat
  | [] => 0
  | d :: ds => d + B * assembleBase B ds

/-- The byte stream emitted so far: every chunk already passed to the sink,
then the occupied whole-byte part of the current buffer. -/
def byteStream (st : FileWriter) : List Nat :=
  flat st.flushes ++ st.buffer.take (st.bit_position / 8)

/-- Byte-aligned well-formedness of a writer state. -/
def PB (st : FileWriter) : Prop :=
  st.bit_position % 8 = 0 ∧ st.bit_position ≤ BUFFER_BIT_LEN ∧
    st.buffer.length = BUFFER_LEN

/-- Folding `write_byte` over a byte list, the shape used by `write_u64`
and `write_block`. -/
def writeByteFold (bs : List Nat) (st : FileWriter) : FileWriter :=
  bs.foldl (fun s b => write_byte b s) st

/-- Folding `write_bit` over a bit list, the shape used by `write_bits` and
`write_symbol`. -/
def writeBitFold (l : List Nat) (st : FileWriter) : FileWriter :=
  l.foldl (fun s x => write_bit x s) st

/-- Bit k of a byte stream, bit 0 of a byte first. -/
def bitAt (bytes : List Nat) (k : Nat) : Nat :=
  get_bit (nth bytes (k / 8)) (k % 8)

/-- Every byte the writer holds: the flushed chunks then the whole current
buffer. -/
def allBytes (st : FileWriter) : List Nat := flat st.flushes ++ st.buffer

/-- The abstract-stream invariant: the writer state materializes exactly the
abstract bit list `bits` written so far (and zeros everywhere beyond). -/
def WInv (st : FileWriter) (bits : List Nat) : Prop :=
  st.buffer.length = BUFFER_LEN ∧ st.bit_position ≤ BUFFER_BIT_LEN ∧
    8 * (flat st.flushes).length + st.bit_position = bits.length ∧
    ∀ k, bitAt (allBytes st) k = nth bits k

/-- The eight bits of a byte, least significant first. -/
def byteBits (b : Nat) : List Nat := (List.range 8).map (get_bit b)

/-- The bits of a byte list, least-significant bit of each byte first. -/
def bitsOfBytes : List Nat → List Nat
  | [] => []
  | b :: bs => byteBits b ++ bitsOfBytes bs

/-- One writer call of the round-trip law (the five operations the law
quantifies over). -/
inductive WOp where
  | wbit (b : Nat)
  | wbits (v c : Nat)
  | wbyte (b : Nat)
  | wsym (s : SymbolCode)
  | wu64 (n : Nat)
deriving Repr, DecidableEq

def writeOp (le : Bool) (op : WOp) (st : FileWriter) : FileWriter :=
  match op with
  | .wbit b => write_bit b st
  | .wbits v c => write_bits v c st
  | .wbyte b => write_byte b st
  | .wsym s => write_symbol s st
  | .wu64 n => write_u64 le n st

def writeRun (le : Bool) (ops : List WOp) (st : FileWriter) : FileWriter :=
  ops.foldl (fun s op => writeOp le op s) st

/-- The abstract bits an operation appends to the stream. -/
def opBits (le : Bool) : WOp → List Nat
  | .wbit b => [b]
  | .wbits v c => (List.range c).map (get_bit v)
  | .wbyte b => byteBits b
  | .wsym s => (List.range s.bit_len).map (get_bit s.encoded_symbol)
  | .wu64 n => bitsOfBytes (u64TransmuteBytes le n)

/-- The number of bits an operation writes. -/
def opLen : WOp → Nat
  | .wbit _ => 1
  | .wbits _ c => c
  | .wbyte _ => 8
  | .wsym s => s.bit_len
  | .wu64 _ => 64

/-- The value an operation writes (what the symmetric read must return). -/
def opValue : WOp → Nat
  | .wbit b => b
  | .wbits v _ => v
  | .wbyte b => b
  | .wsym s => s.encoded_symbol
  | .wu64 n => n

/-- Canonical-argument side conditions (the Rust types and the spec bounds:
a bit is 0 or 1, `write_bits` takes `0 ≤ count ≤ 8` and a value in range,
bytes are u8, patterns are canonical, `write_u64` takes a u64). -/
def opValidB : WOp → Bool
  | .wbit b => decide (b ≤ 1)
  | .wbits v c => decide (c ≤ 8) && decide (v < 2 ^ c)
  | .wbyte b => decide (b < 256)
  | .wsym s => decide (s.encoded_symbol < 2 ^ s.bit_len)
  | .wu64 n => decide (n < 2 ^ 64)

def isByteOp : WOp → Bool
  | .wbyte _ => true
  | .wu64 _ => true
  | _ => false

/-- Every whole-byte operation of the list starts on a byte boundary, where
`p` is the number of bits written before the list runs. -/
def opsAlignedB : Nat → List WOp → Bool
  | _, [] => true
  | p, op :: rest =>
    (!isByteOp op || decide (p % 8 = 0)) && opsAlignedB (p + opLen op) rest

def opsLen : List WOp → Nat
  | [] => 0
  | op :: rest => opLen op + opsLen rest

def opsBits (le : Bool) : List WOp → List Nat
  | [] => []
  | op :: rest => opBits le op ++ opsBits le rest

/-! The reader dual.  Modelled from the spec: src/ has no read.rs; the
spec requires a `BitReader` mirroring every writer primitive with the same
byte order and padding convention.  Internal buffering/refill is abstracted
away: the reader reads bit `rpos` of the source byte stream directly, and
`UnexpectedEofError` (reaching end-of-source) is the error case of the
bounds check. -/

/-- Modelled from the spec: `read_bit`, the bit at the cursor, or an
end-of-source error. -/
def read_bit (stream : List Nat) (rpos : Nat) : Except Unit (Nat × Nat) :=
  if rpos / 8 < stream.length then
    .ok (get_bit (nth stream (rpos / 8)) (rpos % 8), rpos + 1)
  else .error ()

/-- Modelled from the spec: `read_bits count`, `count` bits assembled least
significant first. -/
def read_bits (stream : List Nat) : Nat → Nat → Except Unit (Nat × Nat)
  | rpos, 0 => .ok (0, rpos)
  | rpos, c + 1 =>
    match read_bit stream rpos with
    | .error e => .error e
    | .ok (b, r1) =>
      match read_bits stream r1 c with
      | .error e => .error e
      | .ok (v, r2) => .ok (b + 2 * v, r2)

/-- Modelled from the spec: `read_byte`, the eight bits of the byte at the
cursor, mirroring the writer convention. -/
def read_byte (stream : List Nat) (rpos : Nat) : Except Unit (Nat × Nat) :=
  read_bits stream rpos 8

/-- Modelled from the spec: `k` consecutive `read_byte` calls. -/
def read_bytes (stream : List Nat) : Nat → Nat → Except Unit (List Nat × Nat)
  | rpos, 0 => .ok ([], rpos)
  | rpos, k + 1 =>
    match read_byte stream rpos with
    | .error e => .error e
    | .ok (b, r1) =>
      match read_bytes stream r1 k with
      | .error e => .error e
      | .ok (bs, r2) => .ok (b :: bs, r2)

/-- Modelled from the spec: `read_u64`, eight bytes assembled in the same
platform byte order the writer used. -/
def read_u64 (le : Bool) (stream : List Nat) (rpos : Nat) :
    Except Unit (Nat × Nat) :=
  match read_bytes stream rpos 8 with
  | .error e => .error e
  | .ok (bs, r) => .ok (assembleBase 256 (if le then bs else bs.reverse), r)

/-- Modelled from the spec: `read_symbol` with the same parameters, i.e.
reading back a code of the known bit length. -/
def read_symbol (bit_len : Nat) (stream : List Nat) (rpos : Nat) :
    Except Unit (Nat × Nat) :=
  read_bits stream rpos bit_len

/-- The reader call symmetric to a writer call. -/
def readOp (le : Bool) (op : WOp) (stream : List Nat) (rpos : Nat) :
    Except Unit (Nat × Nat) :=
  match op with
  | .wbit _ => read_bit stream rpos
  | .wbits _ c => read_bits stream rpos c
  | .wbyte _ => read_byte stream rpos
  | .wsym s => read_symbol s.bit_len stream rpos
  | .wu64 _ => read_u64 le stream rpos

/-- Running the symmetric sequence of reader calls, collecting the values
read. -/
def readBack (le : Bool) (stream : List Nat) :
    List WOp → Nat → Except Unit (List Nat)
  | [], _ => .ok []
  | op :: rest, rpos =>
    match readOp le op stream rpos with
    | .error e => .error e
    | .ok (v, r1) =>
      match readBack le stream rest r1 with
      | .error e => .error e
      | .ok vs => .ok (v :: vs)

/-- One writer call, for the cursor-invariant claim: all seven operations. -/
inductive AOp where
  | abit (b : Nat)
  | abits (v c : Nat)
  | abyte (b : Nat)
  | asym (s : SymbolCode)
  | au64 (n : Nat)
  | aalign
  | ablock (blk : FileBlock)
deriving Repr, DecidableEq

def runAOp (le : Bool) (op : AOp) (st : FileWriter) : FileWriter :=
  match op with
  | .abit b => write_bit b st
  | .abits v c => write_bits v c st
  | .abyte b => write_byte b st
  | .asym s => write_symbol s st
  | .au64 n => write_u64 le n st
  | .aalign => align_to_byte st
  | .ablock blk => write_block le blk st

def runA (le : Bool) (ops : List AOp) (st : FileWriter) : FileWriter :=
  ops.foldl (fun s op => runAOp le op s) st

/-- Every whole-byte operation starts on a byte boundary; `p` tracks the
cursor modulo 8. -/
def aOpsAlignedB : Nat → List AOp → Bool
  | _, [] => true
  | p, op :: rest =>
    match op with
    | .abit _ => aOpsAlignedB ((p + 1) % 8) rest
    | .abits _ c => aOpsAlignedB ((p + c) % 8) rest
    | .asym s => aOpsAlignedB ((p + s.bit_len) % 8) rest
    | .abyte _ => decide (p % 8 = 0) && aOpsAlignedB 0 rest
    | .au64 _ => decide (p % 8 = 0) && aOpsAlignedB 0 rest
    | .ablock _ => decide (p % 8 = 0) && aOpsAlignedB 0 rest
    | .aalign => aOpsAlignedB 0 rest

/-- The cursor-and-flush invariant of the cursor claim: the cursor is in
bounds and every flush so far happened at a byte-aligned cursor. -/
def PInv (st : FileWriter) : Prop :=
  st.buffer.length = BUFFER_LEN ∧ st.bit_position ≤ BUFFER_BIT_LEN ∧
    ∀ q ∈ st.persistLog, q % 8 = 0

/-- Modelled from the spec (which calls filenames ASCII/UTF-8 text): the
UTF-8 encoding of a Unicode scalar value in [0x80, 0x800) is the two bytes
`[0xC0 + c / 64, 0x80 + c % 64]`. -/
def utf8TwoByte (c : Nat) : List Nat := [192 + c / 64, 128 + c % 64]

/-! Basic lemmas about the helper functions. -/

theorem BUFFER_LEN_eq : BUFFER_LEN = 4096 := rfl

theorem BUFFER_BIT_LEN_eq : BUFFER_BIT_LEN = 32768 := rfl

theorem nth_nil (i : Nat) : nth [] i = 0 := by cases i <;> rfl

theorem nth_ge : ∀ (l : List Nat) (i : Nat), l.length ≤ i → nth l i = 0
  | [], i, _ => nth_nil i
  | _ :: t, i + 1, h => nth_ge t i (Nat.le_of_succ_le_succ h)

theorem nth_append_left : ∀ (l₁ l₂ : List Nat) (i : Nat), i < l₁.length →
    nth (l₁ ++ l₂) i = nth l₁ i
  | _ :: _, _, 0, _ => rfl
  | _ :: t, l₂, i + 1, h => nth_append_left t l₂ i (Nat.lt_of_succ_lt_succ h)

theorem nth_append_right : ∀ (l₁ l₂ : List Nat) (j : Nat),
    nth (l₁ ++ l₂) (l₁.length + j) = nth l₂ j
  | [], l₂, j => by simp [nth]
  | a :: t, l₂, j => by
    have : (a :: t).length + j = (t.length + j) + 1 := by
      simp [List.length_cons]; omega
    rw [this]
    exact nth_append_right t l₂ j

theorem nth_set_self : ∀ (l : List Nat) (i : Nat) (v : Nat), i < l.length →
    nth (l.set i v) i = v
  | _ :: _, 0, _, _ => rfl
  | _ :: t, i + 1, v, h => nth_set_self t i v (Nat.lt_of_succ_lt_succ h)

theorem nth_set_ne : ∀ (l : List Nat) (i j : Nat) (v : Nat), i ≠ j →
    nth (l.set i v) j = nth l j
  | [], _, _, _, _ => rfl
  | _ :: _, 0, 0, _, h => absurd rfl h
  | _ :: _, 0, _ + 1, _, _ => rfl
  | _ :: _, _ + 1, 0, _, _ => rfl
  | _ :: t, i + 1, j + 1, v, h =>
    nth_set_ne t i j v (fun hij => h (by rw [hij]))

theorem nth_replicate_zero : ∀ (n i : Nat), nth (List.replicate n 0) i = 0
  | 0, i => nth_nil i
  | _ + 1, 0 => rfl
  | n + 1, i + 1 => nth_replicate_zero n i

theorem nth_take : ∀ (l : List Nat) (k i : Nat), i < k →
    nth (l.take k) i = nth l i
  | [], k, i, _ => by simp [List.take_nil]
  | _ :: _, _ + 1, 0, _ => rfl
  | _ :: t, k + 1, i + 1, h => nth_take t k i (Nat.lt_of_succ_lt_succ h)

theorem nth_eq_getElem : ∀ (l : List Nat) (i : Nat) (h : i < l.length),
    nth l i = l[i]
  | _ :: _, 0, _ => rfl
  | _ :: t, i + 1, h => nth_eq_getElem t i (Nat.lt_of_succ_lt_succ h)

theorem nth_map_range (f : Nat → Nat) (k j : Nat) (h : j < k) :
    nth ((List.range k).map f) j = f j := by
  have hj : j < ((List.range k).map f).length := by
    simpa using h
  rw [nth_eq_getElem _ _ hj]
  simp

theorem flat_append : ∀ (a b : List (List Nat)),
    flat (a ++ b) = flat a ++ flat b
  | [], _ => rfl
  | c :: cs, b => by simp [flat, flat_append cs b]

theorem take_set_append : ∀ (l : List Nat) (m : Nat) (b : Nat),
    m < l.length → (l.set m b).take (m + 1) = l.take m ++ [b]
  | _ :: _, 0, _, _ => rfl
  | _ :: t, m + 1, b, h => by
    simp only [List.set_cons_succ, List.take_succ_cons, List.cons_append,
      List.cons.injEq, true_and]
    exact take_set_append t m b (Nat.lt_of_succ_lt_succ h)

theorem take_of_set_ge : ∀ (l : List Nat) (m k : Nat) (b : Nat), k ≤ m →
    (l.set m b).take k = l.take k
  | [], _, _, _, _ => rfl
  | _ :: _, _, 0, _, _ => by simp
  | a :: t, m + 1, k + 1, b, h => by
    simp only [List.set_cons_succ, List.take_succ_cons, List.cons.injEq,
      true_and]
    exact take_of_set_ge t m k b (Nat.le_of_succ_le_succ h)

/-! Bit-level lemmas. -/

theorem get_bit_lt_two (n i : Nat) : get_bit n i < 2 :=
  Nat.mod_lt _ (by decide)

theorem get_bit_le_one (n i : Nat) : get_bit n i ≤ 1 :=
  Nat.lt_succ_iff.mp (get_bit_lt_two n i)

theorem get_bit_eq_testBit (n i : Nat) :
    get_bit n i = if n.testBit i then 1 else 0 := by
  rw [Nat.testBit_to_div_mod]
  unfold get_bit
  simp only [decide_eq_true_eq]
  by_cases h : n / 2 ^ i % 2 = 1
  · simp [h]
  · rw [if_neg h]
    have h2 : n / 2 ^ i % 2 < 2 := Nat.mod_lt _ (by decide)
    omega

theorem get_bit_zero_num (i : Nat) : get_bit 0 i = 0 := by
  simp [get_bit]

theorem get_bit_set_bit_self (v j : Nat) : get_bit (set_bit v j) j = 1 := by
  rw [get_bit_eq_testBit, set_bit]
  simp [Nat.testBit_lor, Nat.testBit_two_pow_self]

theorem get_bit_set_bit_ne (v j k : Nat) (h : j ≠ k) :
    get_bit (set_bit v j) k = get_bit v k := by
  rw [get_bit_eq_testBit, get_bit_eq_testBit, set_bit]
  simp [Nat.testBit_lor, Nat.testBit_two_pow_of_ne h]

theorem get_bit_of_lt (v i : Nat) (h : v < 2 ^ i) : get_bit v i = 0 := by
  unfold get_bit
  rw [Nat.div_eq_of_lt h]

theorem assembleBase_digits (B : Nat) :
    ∀ (k n : Nat),
      assembleBase B ((List.range k).map fun i => n / B ^ i % B) = n % B ^ k
  | 0, n => by simp [assembleBase, Nat.mod_one]
  | k + 1, n => by
    rw [List.range_succ_eq_map, List.map_cons, List.map_map]
    have hf : ((fun i => n / B ^ i % B) ∘ Nat.succ) =
        fun i => n / B / B ^ i % B := by
      funext i
      simp only [Function.comp]
      rw [Nat.div_div_eq_div_mul, ← pow_succ']
    rw [hf]
    show n / B ^ 0 % B + B * _ = _
    rw [assembleBase_digits B k (n / B), pow_succ', Nat.mod_mul]
    simp

theorem assembleBase_bits (c v : Nat) (h : v < 2 ^ c) :
    assembleBase 2 ((List.range c).map (get_bit v)) = v := by
  have : get_bit v = fun i => v / 2 ^ i % 2 := rfl
  rw [this, assembleBase_digits, Nat.mod_eq_of_lt h]

/-! The byte-aligned emission machinery: under byte alignment, every
`write_byte` appends exactly its byte to the emitted byte stream. -/

theorem PB_fresh : PB freshWriter := by
  refine ⟨rfl, by decide, ?_⟩
  simp [freshWriter]

theorem write_byte_byteStream (b : Nat) (st : FileWriter) (h : PB st) :
    byteStream (write_byte b st) = byteStream st ++ [b] ∧
      PB (write_byte b st) := by
  obtain ⟨ha, hle, hbuf⟩ := h
  by_cases hfull : st.bit_position ≥ BUFFER_BIT_LEN
  · have htake : st.buffer.take (st.bit_position / 8) = st.buffer := by
      rw [Nat.le_antisymm hle hfull]
      show List.take 4096 st.buffer = st.buffer
      conv_lhs => rw [show (4096 : Nat) = st.buffer.length by
        rw [hbuf, BUFFER_LEN_eq]]
      exact List.take_length st.buffer
    have hset : ((List.replicate BUFFER_LEN 0).set 0 b).take 1 = [b] := by
      have hlen : 0 < (List.replicate BUFFER_LEN 0).length := by
        rw [List.length_replicate, BUFFER_LEN_eq]
        decide
      have h := take_set_append (List.replicate BUFFER_LEN 0) 0 b hlen
      rw [List.take_zero, List.nil_append, Nat.zero_add] at h
      exact h
    constructor
    · simp only [write_byte, update_buffer, if_pos hfull, place_byte,
        persist_buffer, byteStream]
      show flat (st.flushes ++ [st.buffer.take (st.bit_position / 8)]) ++
          ((List.replicate BUFFER_LEN 0).set (0 / 8) b).take ((0 + 8) / 8) =
          flat st.flushes ++ st.buffer.take (st.bit_position / 8) ++ [b]
      rw [htake, flat_append]
      have e1 : ((0 : Nat) + 8) / 8 = 1 := rfl
      have e2 : ((0 : Nat) / 8) = 0 := rfl
      rw [e1, e2, hset]
      simp [flat, List.append_assoc]
    · simp only [write_byte, update_buffer, if_pos hfull, place_byte,
        persist_buffer, PB]
      refine ⟨by decide, by decide, ?_⟩
      rw [List.length_set, List.length_replicate]
  · push_neg at hfull
    have hm : st.bit_position / 8 < st.buffer.length := by
      rw [hbuf, BUFFER_LEN_eq]
      rw [BUFFER_BIT_LEN_eq] at hfull
      omega
    have h8 : (st.bit_position + 8) / 8 = st.bit_position / 8 + 1 :=
      Nat.add_div_right _ (by decide)
    constructor
    · simp only [write_byte, update_buffer,
        if_neg (by omega : ¬ st.bit_position ≥ BUFFER_BIT_LEN),
        place_byte, byteStream]
      rw [h8, take_set_append _ _ _ hm, List.append_assoc]
    · simp only [write_byte, update_buffer,
        if_neg (by omega : ¬ st.bit_position ≥ BUFFER_BIT_LEN),
        place_byte, PB]
      refine ⟨by omega, ?_, by rw [List.length_set, hbuf]⟩
      rw [BUFFER_BIT_LEN_eq] at hfull ⊢
      omega

theorem writeByteFold_byteStream : ∀ (bs : List Nat) (st : FileWriter),
    PB st → byteStream (writeByteFold bs st) = byteStream st ++ bs ∧
      PB (writeByteFold bs st)
  | [], st, h => by simp [writeByteFold, h]
  | b :: bs, st, h => by
    obtain ⟨h1, h2⟩ := write_byte_byteStream b st h
    obtain ⟨h3, h4⟩ := writeByteFold_byteStream bs (write_byte b st) h2
    refine ⟨?_, h4⟩
    show byteStream (writeByteFold bs (write_byte b st)) = _
    rw [h3, h1, List.append_assoc]
    rfl

theorem byteStream_fresh : byteStream freshWriter = [] := rfl

theorem write_u64_eq_fold (le : Bool) (num : Nat) (st : FileWriter) :
    write_u64 le num st = writeByteFold (u64TransmuteBytes le num) st := rfl

theorem length_u64TransmuteBytes (le : Bool) (num : Nat) :
    (u64TransmuteBytes le num).length = 8 := by
  unfold u64TransmuteBytes
  cases le <;> simp

/-- The byte sequence `write_block` emits, for every block: one byte per
filename character, truncated by `as u8` to its low 8 bits, then the null
terminator, then the four transmuted u64 fields in order. -/
theorem write_block_byteStream (le : Bool) (blk : FileBlock)
    (st : FileWriter) (h : PB st) :
    byteStream (write_block le blk st) =
      byteStream st ++ (blk.filename_rel.map fun c => c % 256) ++ [0] ++
        u64TransmuteBytes le blk.fbs.tree_bit_size ++
        u64TransmuteBytes le blk.fbs.data_bit_size ++
        u64TransmuteBytes le blk.file_byte_offset ++
        u64TransmuteBytes le blk.og_byte_size ∧
      PB (write_block le blk st) := by
  have hname : blk.filename_rel.foldl (fun s c => write_byte (c % 256) s) st =
      writeByteFold (blk.filename_rel.map fun c => c % 256) st := by
    rw [writeByteFold, List.foldl_map]
  obtain ⟨h1, p1⟩ :=
    writeByteFold_byteStream (blk.filename_rel.map fun c => c % 256) st h
  obtain ⟨h2, p2⟩ := write_byte_byteStream 0
    (writeByteFold (blk.filename_rel.map fun c => c % 256) st) p1
  obtain ⟨h3, p3⟩ := writeByteFold_byteStream
    (u64TransmuteBytes le blk.fbs.tree_bit_size) _ p2
  obtain ⟨h4, p4⟩ := writeByteFold_byteStream
    (u64TransmuteBytes le blk.fbs.data_bit_size) _ p3
  obtain ⟨h5, p5⟩ := writeByteFold_byteStream
    (u64TransmuteBytes le blk.file_byte_offset) _ p4
  obtain ⟨h6, p6⟩ := writeByteFold_byteStream
    (u64TransmuteBytes le blk.og_byte_size) _ p5
  constructor
  · simp only [write_block, write_u64_eq_fold, hname]
    rw [h6, h5, h4, h3, h2, h1]
  · simp only [write_block, write_u64_eq_fold, hname]
    exact p6

/-! Claim C1: finalization. -/

/-- C1 counterexample: after five `write_bit 1` calls the buffer holds the
byte 31 (all five bits present) and the cursor is 5, yet releasing the
writer flushes the empty chunk: the final partial byte is dropped rather
than flushed zero-padded as the claim states. -/
theorem C1_cex :
    (writeBitFold [1, 1, 1, 1, 1] freshWriter).bit_position = 5 ∧
    nth (writeBitFold [1, 1, 1, 1, 1] freshWriter).buffer 0 = 31 ∧
    (dropWriter (writeBitFold [1, 1, 1, 1, 1] freshWriter)).flushes = [[]] := by
  decide

/-- C1 (corrected): releasing the writer performs exactly one
`persist_buffer`, which flushes exactly the fully-occupied whole-byte
prefix `buffer[0 .. bit_position / 8]` — `floor(bit_position / 8)` bytes,
not rounded up: any bits in a final partial byte are dropped. -/
theorem C1_amended (st : FileWriter) (hbuf : st.buffer.length = BUFFER_LEN)
    (hle : st.bit_position ≤ BUFFER_BIT_LEN) :
    (dropWriter st).flushes =
      st.flushes ++ [st.buffer.take (st.bit_position / 8)] ∧
    (st.buffer.take (st.bit_position / 8)).length = st.bit_position / 8 ∧
    (dropWriter st).persistLog = st.persistLog ++ [st.bit_position] := by
  refine ⟨rfl, ?_, rfl⟩
  rw [List.length_take, hbuf, BUFFER_LEN_eq]
  rw [BUFFER_BIT_LEN_eq] at hle
  omega

/-- C1 witness: the amended statement applied at the fresh writer. -/
theorem C1_witness :
    freshWriter.buffer.length = BUFFER_LEN ∧
    freshWriter.bit_position ≤ BUFFER_BIT_LEN ∧
    ((dropWriter freshWriter).flushes =
        freshWriter.flushes ++
          [freshWriter.buffer.take (freshWriter.bit_position / 8)] ∧
      (freshWriter.buffer.take (freshWriter.bit_position / 8)).length =
        freshWriter.bit_position / 8 ∧
      (dropWriter freshWriter).persistLog =
        freshWriter.persistLog ++ [freshWriter.bit_position]) :=
  ⟨List.length_replicate BUFFER_LEN 0, by decide,
    C1_amended freshWriter (List.length_replicate BUFFER_LEN 0) (by decide)⟩

/-! Claim C2: the concurrency sizer. -/

/-- C2 counterexample: with the parallel flag set and zero files the code
computes `min(0, 8) = 0` workers; there is no floor of 1. -/
theorem C2_cex :
    choose_worker_count true 0 8 = 0 ∧ choose_worker_count true 0 8 ≠ 1 := by
  decide

/-- C2 (corrected): the worker count is 1 when the parallel flag is false
and exactly `min(file_count, hardware_concurrency)` otherwise, with no
floor: it is 0 when `file_count = 0`. -/
theorem C2_amended (fc hw : Nat) :
    choose_worker_count false fc hw = 1 ∧
    choose_worker_count true fc hw = min fc hw ∧
    choose_worker_count true 3 8 = 3 ∧
    choose_worker_count true 100 8 = 8 ∧
    choose_worker_count false 10 8 = 1 :=
  ⟨rfl, rfl, by decide, by decide, rfl⟩

/-! Claim C9: sink-failure semantics. -/

/-- C9 (confirmed): when the sink write fails during a flush the error
surfaces immediately and the writer state is unchanged — the buffer still
holds the unflushed bits and the cursor is not reset; the cursor reset and
buffer clearing happen only after a successful persist, and an operation
whose cursor has not reached the buffer end never touches the sink. -/
theorem C9_thm (st : FileWriter) (bit byte : Nat)
    (h : st.bit_position ≥ BUFFER_BIT_LEN) :
    write_bitE false bit st = .error st ∧
    write_byteE false byte st = .error st ∧
    update_bufferE false st = .error st ∧
    update_bufferE true st =
      .ok { persist_buffer st with bit_position := 0, buffer := List.replicate BUFFER_LEN 0 } ∧
    (∀ s2 : FileWriter, s2.bit_position < BUFFER_BIT_LEN →
      write_bitE false bit s2 = .ok (place_bit bit s2)) := by
  refine ⟨?_, ?_, ?_, ?_, ?_⟩
  · simp [write_bitE, update_bufferE, persist_bufferE, if_pos h]
  · simp [write_byteE, update_bufferE, persist_bufferE, if_pos h]
  · simp [update_bufferE, persist_bufferE, if_pos h]
  · simp [update_bufferE, persist_bufferE, if_pos h]
  · intro s2 h2
    simp [write_bitE, update_bufferE, if_neg (by omega : ¬ s2.bit_position ≥ BUFFER_BIT_LEN)]

/-- C9 witness: the failure semantics at a concrete full writer state. -/
theorem C9_witness :
    (FileWriter.mk (List.replicate BUFFER_LEN 0) BUFFER_BIT_LEN [] []).bit_position ≥
        BUFFER_BIT_LEN ∧
    (write_bitE false 1 (FileWriter.mk (List.replicate BUFFER_LEN 0) BUFFER_BIT_LEN [] []) =
        .error (FileWriter.mk (List.replicate BUFFER_LEN 0) BUFFER_BIT_LEN [] []) ∧
      write_byteE false 7 (FileWriter.mk (List.replicate BUFFER_LEN 0) BUFFER_BIT_LEN [] []) =
        .error (FileWriter.mk (List.replicate BUFFER_LEN 0) BUFFER_BIT_LEN [] []) ∧
      update_bufferE false (FileWriter.mk (List.replicate BUFFER_LEN 0) BUFFER_BIT_LEN [] []) =
        .error (FileWriter.mk (List.replicate BUFFER_LEN 0) BUFFER_BIT_LEN [] []) ∧
      update_bufferE true (FileWriter.mk (List.replicate BUFFER_LEN 0) BUFFER_BIT_LEN [] []) =
        .ok { persist_buffer (FileWriter.mk (List.replicate BUFFER_LEN 0) BUFFER_BIT_LEN [] []) with bit_position := 0, buffer := List.replicate BUFFER_LEN 0 } ∧
      (∀ s2 : FileWriter, s2.bit_position < BUFFER_BIT_LEN →
        write_bitE false 1 s2 = .ok (place_bit 1 s2))) :=
  ⟨by decide,
    C9_thm (FileWriter.mk (List.replicate BUFFER_LEN 0) BUFFER_BIT_LEN [] []) 1 7
      (by decide)⟩

/-! Claim C5: write_u64 byte order. -/

/-- C5 counterexample: `write_u64` uses the platform memory order of the
transmute — on a big-endian platform the first emitted byte of the value 1
is 0, while the claim demands `(1 >> 0) % 256 = 1` on every platform. -/
theorem C5_cex :
    nth (byteStream (write_u64 false 1 freshWriter)) 0 = 0 ∧
    nth (byteStream (write_u64 true 1 freshWriter)) 0 = 1 ∧
    (1 : Nat) / 2 ^ (8 * 0) % 256 = 1 := by
  decide

/-- C5 (corrected): `write_u64` emits exactly 8 bytes via 8 `write_byte`
calls in the platform memory order of the transmute; on a little-endian
platform the i-th emitted byte equals `(n >> (8 * i)) % 256`.  The order is
platform-native, not fixed independently of the platform. -/
theorem C5_amended (n i : Nat) (hi : i < 8) :
    byteStream (write_u64 true n freshWriter) =
      (List.range 8).map (fun j => n / 2 ^ (8 * j) % 256) ∧
    nth (byteStream (write_u64 true n freshWriter)) i = n / 2 ^ (8 * i) % 256 := by
  obtain ⟨h1, _⟩ := writeByteFold_byteStream (u64TransmuteBytes true n)
    freshWriter PB_fresh
  rw [← write_u64_eq_fold, byteStream_fresh, List.nil_append] at h1
  have heq : byteStream (write_u64 true n freshWriter) =
      (List.range 8).map (fun j => n / 2 ^ (8 * j) % 256) := h1
  refine ⟨heq, ?_⟩
  rw [heq]
  exact nth_map_range _ 8 i hi

/-- C5 witness: the little-endian byte formula at n = 258, i = 1. -/
theorem C5_witness :
    1 < 8 ∧
    (byteStream (write_u64 true 258 freshWriter) =
        (List.range 8).map (fun j => 258 / 2 ^ (8 * j) % 256) ∧
      nth (byteStream (write_u64 true 258 freshWriter)) 1 =
        258 / 2 ^ (8 * 1) % 256) :=
  ⟨by decide, C5_amended 258 1 (by decide)⟩

/-! Claims C6 and C10: block serialization. -/

/-- C6 counterexample: for the one-character filename U+0100 (whose UTF-8
bytes are [196, 128]) the emitted stream begins [0, 0] — the truncated
character byte 0x00 followed by the terminator — not the filename's bytes
followed by exactly one terminator. -/
theorem C6_cex :
    (byteStream (write_block true ⟨[256], ⟨0, 0⟩, 0, 0⟩ freshWriter)).take 2 =
      [0, 0] ∧
    ([0, 0] : List Nat) ≠ [196, 128] := by
  decide

/-- C6 (corrected): for every block whose filename characters are ASCII,
`write_block` emits exactly the filename bytes, then a single null
terminator, then the four u64 fields via `write_u64` in the order
tree_bit_size, data_bit_size, file_byte_offset, og_byte_size, and nothing
else.  (For non-ASCII filenames each character is truncated to its low
8 bits, so the emitted bytes are not the filename's bytes.) -/
theorem C6_amended (le : Bool) (blk : FileBlock)
    (hascii : ∀ c ∈ blk.filename_rel, c < 128) :
    byteStream (write_block le blk freshWriter) =
      blk.filename_rel ++ [0] ++
        u64TransmuteBytes le blk.fbs.tree_bit_size ++
        u64TransmuteBytes le blk.fbs.data_bit_size ++
        u64TransmuteBytes le blk.file_byte_offset ++
        u64TransmuteBytes le blk.og_byte_size := by
  obtain ⟨h1, _⟩ := write_block_byteStream le blk freshWriter PB_fresh
  rw [byteStream_fresh, List.nil_append] at h1
  have hmap : blk.filename_rel.map (fun c => c % 256) = blk.filename_rel := by
    have hc : blk.filename_rel.map (fun c => c % 256) =
        blk.filename_rel.map (fun c => c) :=
      List.map_congr_left fun c hc =>
        Nat.mod_eq_of_lt (Nat.lt_trans (hascii c hc) (by decide))
    rw [hc, List.map_id']
  rw [h1, hmap]

/-- C6 witness: the amended statement at the block of the spec test vector
("a/b.txt", 37, 4096, 128, 512). -/
theorem C6_witness :
    (∀ c ∈ (FileBlock.mk [97, 47, 98, 46, 116, 120, 116] ⟨37, 4096⟩ 128 512).filename_rel, c < 128) ∧
    byteStream (write_block true
        (FileBlock.mk [97, 47, 98, 46, 116, 120, 116] ⟨37, 4096⟩ 128 512)
        freshWriter) =
      (FileBlock.mk [97, 47, 98, 46, 116, 120, 116] ⟨37, 4096⟩ 128 512).filename_rel ++ [0] ++
        u64TransmuteBytes true 37 ++ u64TransmuteBytes true 4096 ++
        u64TransmuteBytes true 128 ++ u64TransmuteBytes true 512 :=
  ⟨by decide,
    C6_amended true (FileBlock.mk [97, 47, 98, 46, 116, 120, 116] ⟨37, 4096⟩ 128 512)
      (by decide)⟩

/-- C10 (confirmed): `write_block` emits one byte per filename character
equal to that character's scalar value truncated modulo 256; for the
character U+0100 (scalar 256) that byte is 0x00 — an embedded null before
the intended terminator — and it is not the character's two-byte UTF-8
encoding [196, 128]. -/
theorem C10_thm (le : Bool) (blk : FileBlock) :
    byteStream (write_block le blk freshWriter) =
      (blk.filename_rel.map fun c => c % 256) ++ [0] ++
        u64TransmuteBytes le blk.fbs.tree_bit_size ++
        u64TransmuteBytes le blk.fbs.data_bit_size ++
        u64TransmuteBytes le blk.file_byte_offset ++
        u64TransmuteBytes le blk.og_byte_size ∧
    nth (byteStream (write_block true ⟨[256], ⟨0, 0⟩, 0, 0⟩ freshWriter)) 0 = 0 ∧
    (256 : Nat) % 256 = 0 ∧
    utf8TwoByte 256 = [196, 128] ∧ utf8TwoByte 256 ≠ [0] := by
  refine ⟨?_, by decide, by decide, by decide, by decide⟩
  obtain ⟨h1, _⟩ := write_block_byteStream le blk freshWriter PB_fresh
  rw [byteStream_fresh, List.nil_append] at h1
  exact h1

/-! Bit-stream helper lemmas for the writer invariant. -/

theorem nth_append_ge (l₁ l₂ : List Nat) (i : Nat) (h : l₁.length ≤ i) :
    nth (l₁ ++ l₂) i = nth l₂ (i - l₁.length) := by
  obtain ⟨j, rfl⟩ : ∃ j, i = l₁.length + j := ⟨i - l₁.length, by omega⟩
  rw [Nat.add_sub_cancel_left]
  exact nth_append_right l₁ l₂ j

theorem nth_append_singleton (l : List Nat) (x k : Nat) :
    nth (l ++ [x]) k =
      if k < l.length then nth l k else if k = l.length then x else 0 := by
  by_cases h1 : k < l.length
  · rw [if_pos h1, nth_append_left _ _ _ h1]
  · rw [if_neg h1]
    by_cases h2 : k = l.length
    · subst h2
      rw [if_pos rfl, nth_append_ge _ _ _ (Nat.le_refl _), Nat.sub_self]
      rfl
    · rw [if_neg h2, nth_append_ge _ _ _ (by omega)]
      have h3 : k - l.length = (k - l.length - 1) + 1 := by omega
      rw [h3]
      exact nth_nil (k - l.length - 1)

theorem nth_append_replicate_zero (A : List Nat) (m i : Nat) :
    nth (A ++ List.replicate m 0) i = nth A i := by
  by_cases h : i < A.length
  · exact nth_append_left _ _ _ h
  · rw [nth_ge A i (by omega), nth_append_ge _ _ _ (by omega),
      nth_replicate_zero]

theorem flat_snoc_length (xs : List (List Nat)) (c : List Nat) :
    (flat (xs ++ [c])).length = (flat xs).length + c.length := by
  rw [flat_append]
  simp [flat]

theorem byteBits_length (b : Nat) : (byteBits b).length = 8 := by
  simp [byteBits]

theorem bitsOfBytes_length : ∀ (bs : List Nat),
    (bitsOfBytes bs).length = 8 * bs.length
  | [] => rfl
  | b :: bs => by
    simp [bitsOfBytes, byteBits_length, bitsOfBytes_length bs]
    omega

theorem opBits_length (le : Bool) (op : WOp) :
    (opBits le op).length = opLen op := by
  cases op with
  | wbit b => rfl
  | wbits v c => simp [opBits, opLen]
  | wbyte b => simp [opBits, opLen, byteBits_length]
  | wsym s => simp [opBits, opLen]
  | wu64 n =>
    simp [opBits, opLen, bitsOfBytes_length, length_u64TransmuteBytes]

theorem opsBits_length (le : Bool) : ∀ (ops : List WOp),
    (opsBits le ops).length = opsLen ops
  | [] => rfl
  | op :: rest => by
    simp [opsBits, opsLen, opBits_length, opsBits_length le rest]

theorem take_pos_div_full (st : FileWriter)
    (hbuf : st.buffer.length = BUFFER_LEN)
    (hpos : st.bit_position = BUFFER_BIT_LEN) :
    st.buffer.take (st.bit_position / 8) = st.buffer := by
  rw [hpos]
  show List.take 4096 st.buffer = st.buffer
  conv_lhs => rw [show (4096 : Nat) = st.buffer.length by rw [hbuf, BUFFER_LEN_eq]]
  exact List.take_length st.buffer

theorem WInv_fresh : WInv freshWriter [] := by
  refine ⟨List.length_replicate _ _, by decide, rfl, ?_⟩
  intro k
  rw [nth_nil]
  show get_bit (nth (flat ([] : List (List Nat)) ++ List.replicate BUFFER_LEN 0)
    (k / 8)) (k % 8) = 0
  show get_bit (nth (List.replicate BUFFER_LEN 0) (k / 8)) (k % 8) = 0
  rw [nth_replicate_zero, get_bit_zero_num]

theorem flat_singleton (c : List Nat) : flat [c] = c := by simp [flat]

theorem update_buffer_WInv (st : FileWriter) (bits : List Nat)
    (h : WInv st bits) :
    WInv (update_buffer st) bits ∧
      (update_buffer st).bit_position < BUFFER_BIT_LEN := by
  obtain ⟨hbuf, hle, hlen, hmat⟩ := h
  by_cases hfull : st.bit_position ≥ BUFFER_BIT_LEN
  · have hpos : st.bit_position = BUFFER_BIT_LEN := Nat.le_antisymm hle hfull
    have htake := take_pos_div_full st hbuf hpos
    have hupd : update_buffer st =
        FileWriter.mk (List.replicate BUFFER_LEN 0) 0
          (st.flushes ++ [st.buffer]) (st.persistLog ++ [st.bit_position]) := by
      rw [update_buffer, if_pos hfull]
      simp [persist_buffer, htake]
    rw [hupd]
    refine ⟨⟨List.length_replicate _ _, by show (0 : Nat) ≤ BUFFER_BIT_LEN; decide,
      ?_, ?_⟩, by show (0 : Nat) < BUFFER_BIT_LEN; decide⟩
    · show 8 * (flat (st.flushes ++ [st.buffer])).length + 0 = bits.length
      rw [flat_snoc_length]
      rw [BUFFER_BIT_LEN_eq] at hpos
      rw [hbuf, BUFFER_LEN_eq]
      omega
    · intro k
      show get_bit (nth (flat (st.flushes ++ [st.buffer]) ++
        List.replicate BUFFER_LEN 0) (k / 8)) (k % 8) = nth bits k
      rw [nth_append_replicate_zero, flat_append, flat_singleton]
      exact hmat k
  · have hupd : update_buffer st = st := by rw [update_buffer, if_neg hfull]
    rw [hupd]
    exact ⟨⟨hbuf, hle, hlen, hmat⟩, by omega⟩

theorem place_bit_WInv (b : Nat) (st : FileWriter) (bits : List Nat)
    (h : WInv st bits) (hlt : st.bit_position < BUFFER_BIT_LEN) (hb : b ≤ 1) :
    WInv (place_bit b st) (bits ++ [b]) := by
  obtain ⟨hbuf, hle, hlen, hmat⟩ := h
  have hi : st.bit_position / 8 < st.buffer.length := by
    rw [hbuf, BUFFER_LEN_eq]
    rw [BUFFER_BIT_LEN_eq] at hlt
    omega
  have hRHS : ∀ k, k ≠ bits.length → nth (bits ++ [b]) k = nth bits k := by
    intro k hk
    rw [nth_append_singleton]
    by_cases h1 : k < bits.length
    · rw [if_pos h1]
    · rw [if_neg h1, if_neg hk, nth_ge bits k (by omega)]
  have hRHS0 : nth (bits ++ [b]) bits.length = b := by
    rw [nth_append_singleton, if_neg (by omega), if_pos rfl]
  have hlen1 : (bits ++ [b]).length = bits.length + 1 := by simp
  have hb01 : b = 0 ∨ b = 1 := by omega
  rcases hb01 with rfl | rfl
  · have hs : place_bit 0 st = { st with bit_position := st.bit_position + 1 } := by
      simp [place_bit]
    rw [hs]
    refine ⟨hbuf, ?_, ?_, ?_⟩
    · show st.bit_position + 1 ≤ BUFFER_BIT_LEN
      omega
    · show 8 * (flat st.flushes).length + (st.bit_position + 1) =
        (bits ++ [0]).length
      rw [hlen1]
      omega
    · intro k
      show bitAt (allBytes st) k = nth (bits ++ [0]) k
      by_cases hk : k = bits.length
      · subst hk
        rw [hRHS0, hmat, nth_ge bits _ (Nat.le_refl _)]
      · rw [hRHS k hk]
        exact hmat k
  · have hs : place_bit 1 st = { st with
        buffer := st.buffer.set (st.bit_position / 8)
          (set_bit (nth st.buffer (st.bit_position / 8)) (st.bit_position % 8)),
        bit_position := st.bit_position + 1 } := by
      simp [place_bit]
    rw [hs]
    refine ⟨by rw [List.length_set]; exact hbuf, ?_, ?_, ?_⟩
    · show st.bit_position + 1 ≤ BUFFER_BIT_LEN
      omega
    · show 8 * (flat st.flushes).length + (st.bit_position + 1) =
        (bits ++ [1]).length
      rw [hlen1]
      omega
    · intro k
      show get_bit (nth (flat st.flushes ++ st.buffer.set (st.bit_position / 8)
          (set_bit (nth st.buffer (st.bit_position / 8))
            (st.bit_position % 8))) (k / 8)) (k % 8) = nth (bits ++ [1]) k
      by_cases hk : k = bits.length
      · subst hk
        have hdiv : bits.length / 8 =
            (flat st.flushes).length + st.bit_position / 8 := by omega
        have hmod : bits.length % 8 = st.bit_position % 8 := by omega
        rw [hRHS0, hdiv, hmod,
          nth_append_ge _ _ _ (by omega), Nat.add_sub_cancel_left,
          nth_set_self _ _ _ hi, get_bit_set_bit_self]
      · rw [hRHS k hk, ← hmat k]
        show get_bit (nth (flat st.flushes ++ st.buffer.set (st.bit_position / 8)
            (set_bit (nth st.buffer (st.bit_position / 8))
              (st.bit_position % 8))) (k / 8)) (k % 8) =
          get_bit (nth (flat st.flushes ++ st.buffer) (k / 8)) (k % 8)
        by_cases hlt2 : k / 8 < (flat st.flushes).length
        · rw [nth_append_left _ _ _ hlt2, nth_append_left _ _ _ hlt2]
        · rw [nth_append_ge _ _ _ (by omega), nth_append_ge _ _ _ (by omega)]
          by_cases heq : k / 8 - (flat st.flushes).length = st.bit_position / 8
          · have hjne : st.bit_position % 8 ≠ k % 8 := by omega
            rw [heq, nth_set_self _ _ _ hi, get_bit_set_bit_ne _ _ _ hjne]
          · rw [nth_set_ne _ _ _ _ (fun hx => heq hx.symm)]

theorem write_bit_WInv (b : Nat) (st : FileWriter) (bits : List Nat)
    (h : WInv st bits) (hb : b ≤ 1) :
    WInv (write_bit b st) (bits ++ [b]) := by
  obtain ⟨h1, h2⟩ := update_buffer_WInv st bits h
  exact place_bit_WInv b _ bits h1 h2 hb

theorem nth_append_full (l₁ l₂ : List Nat) (k : Nat) :
    nth (l₁ ++ l₂) k =
      if k < l₁.length then nth l₁ k else nth l₂ (k - l₁.length) := by
  by_cases h : k < l₁.length
  · rw [if_pos h, nth_append_left _ _ _ h]
  · rw [if_neg h, nth_append_ge _ _ _ (by omega)]

theorem nth_byteBits (b m : Nat) :
    nth (byteBits b) m = if m < 8 then get_bit b m else 0 := by
  by_cases h : m < 8
  · rw [if_pos h]
    exact nth_map_range _ 8 m h
  · rw [if_neg h]
    exact nth_ge _ _ (by rw [byteBits_length]; omega)

theorem place_byte_WInv (b : Nat) (st : FileWriter) (bits : List Nat)
    (h : WInv st bits) (hlt : st.bit_position < BUFFER_BIT_LEN)
    (halign : st.bit_position % 8 = 0) (_hb : b < 256) :
    WInv (place_byte b st) (bits ++ byteBits b) := by
  obtain ⟨hbuf, hle, hlen, hmat⟩ := h
  have hi : st.bit_position / 8 < st.buffer.length := by
    rw [hbuf, BUFFER_LEN_eq]
    rw [BUFFER_BIT_LEN_eq] at hlt
    omega
  have hlen8 : (bits ++ byteBits b).length = bits.length + 8 := by
    simp [byteBits_length]
  refine ⟨?_, ?_, ?_, ?_⟩
  · show (st.buffer.set (st.bit_position / 8) b).length = BUFFER_LEN
    rw [List.length_set]
    exact hbuf
  · show st.bit_position + 8 ≤ BUFFER_BIT_LEN
    rw [BUFFER_BIT_LEN_eq] at hlt ⊢
    omega
  · show 8 * (flat st.flushes).length + (st.bit_position + 8) =
      (bits ++ byteBits b).length
    rw [hlen8]
    omega
  · intro k
    show get_bit (nth (flat st.flushes ++
      st.buffer.set (st.bit_position / 8) b) (k / 8)) (k % 8) =
      nth (bits ++ byteBits b) k
    have hRHS : nth (bits ++ byteBits b) k =
        if k < bits.length then nth bits k
        else if k < bits.length + 8 then get_bit b (k - bits.length) else 0 := by
      rw [nth_append_full, nth_byteBits]
      by_cases h1 : k < bits.length
      · rw [if_pos h1, if_pos h1]
      · rw [if_neg h1, if_neg h1]
        by_cases h2 : k < bits.length + 8
        · rw [if_pos (by omega : k - bits.length < 8), if_pos h2]
        · rw [if_neg (by omega : ¬ k - bits.length < 8), if_neg h2]
    rw [hRHS]
    by_cases hbyte : k / 8 = (flat st.flushes).length + st.bit_position / 8
    · have hk1 : bits.length ≤ k := by omega
      have hk2 : k < bits.length + 8 := by omega
      rw [if_neg (by omega), if_pos hk2,
        nth_append_ge _ _ _ (by omega), hbyte, Nat.add_sub_cancel_left,
        nth_set_self _ _ _ hi]
      have hsub : k - bits.length = k % 8 := by omega
      rw [hsub]
    · have hunch : nth (flat st.flushes ++
          st.buffer.set (st.bit_position / 8) b) (k / 8) =
          nth (flat st.flushes ++ st.buffer) (k / 8) := by
        by_cases hlt2 : k / 8 < (flat st.flushes).length
        · rw [nth_append_left _ _ _ hlt2, nth_append_left _ _ _ hlt2]
        · rw [nth_append_ge _ _ _ (by omega), nth_append_ge _ _ _ (by omega),
            nth_set_ne _ _ _ _
              (by omega : st.bit_position / 8 ≠ k / 8 - (flat st.flushes).length)]
      rw [hunch]
      have hm := hmat k
      rw [show bitAt (allBytes st) k =
        get_bit (nth (flat st.flushes ++ st.buffer) (k / 8)) (k % 8) from rfl] at hm
      rw [hm]
      by_cases h1 : k < bits.length
      · rw [if_pos h1]
      · have h2 : ¬ k < bits.length + 8 := by omega
        rw [if_neg h1, if_neg h2, nth_ge bits k (by omega)]

theorem write_byte_WInv (b : Nat) (st : FileWriter) (bits : List Nat)
    (h : WInv st bits) (hal : bits.length % 8 = 0) (hb : b < 256) :
    WInv (write_byte b st) (bits ++ byteBits b) := by
  obtain ⟨h1, h2⟩ := update_buffer_WInv st bits h
  have hlen2 := h1.2.2.1
  exact place_byte_WInv b _ bits h1 h2 (by omega) hb

theorem writeBitFold_WInv : ∀ (l : List Nat) (st : FileWriter) (bits : List Nat),
    WInv st bits → (∀ x ∈ l, x ≤ 1) → WInv (writeBitFold l st) (bits ++ l)
  | [], _, _, h, _ => by simpa [writeBitFold] using h
  | x :: l, st, bits, h, hx => by
    have h1 := write_bit_WInv x st bits h (hx x (List.mem_cons_self x l))
    have h2 := writeBitFold_WInv l (write_bit x st) (bits ++ [x]) h1
      (fun y hy => hx y (List.mem_cons_of_mem x hy))
    show WInv (writeBitFold l (write_bit x st)) (bits ++ x :: l)
    rw [show bits ++ x :: l = (bits ++ [x]) ++ l by simp]
    exact h2

theorem writeByteFold_WInv : ∀ (bl : List Nat) (st : FileWriter) (bits : List Nat),
    WInv st bits → bits.length % 8 = 0 → (∀ x ∈ bl, x < 256) →
    WInv (writeByteFold bl st) (bits ++ bitsOfBytes bl)
  | [], _, _, h, _, _ => by simpa [writeByteFold, bitsOfBytes] using h
  | b :: bl, st, bits, h, hal, hx => by
    have h1 := write_byte_WInv b st bits h hal (hx b (List.mem_cons_self b bl))
    have h2 := writeByteFold_WInv bl (write_byte b st) (bits ++ byteBits b) h1
      (by simp [byteBits_length]; omega)
      (fun y hy => hx y (List.mem_cons_of_mem b hy))
    show WInv (writeByteFold bl (write_byte b st)) (bits ++ bitsOfBytes (b :: bl))
    rw [show bits ++ bitsOfBytes (b :: bl) = (bits ++ byteBits b) ++ bitsOfBytes bl
      by simp [bitsOfBytes]]
    exact h2

theorem write_bits_eq_fold (v c : Nat) (st : FileWriter) :
    write_bits v c st = writeBitFold ((List.range c).map (get_bit v)) st := by
  rw [write_bits, writeBitFold, List.foldl_map]

theorem write_symbol_eq_fold (s : SymbolCode) (st : FileWriter) :
    write_symbol s st =
      writeBitFold ((List.range s.bit_len).map (get_bit s.encoded_symbol)) st := by
  rw [write_symbol, writeBitFold, List.foldl_map]

theorem mem_u64TransmuteBytes_lt (le : Bool) (n x : Nat)
    (hx : x ∈ u64TransmuteBytes le n) : x < 256 := by
  unfold u64TransmuteBytes at hx
  cases le with
  | true =>
    simp at hx
    obtain ⟨i, _, rfl⟩ := hx
    exact Nat.mod_lt _ (by decide)
  | false =>
    simp [List.mem_reverse] at hx
    obtain ⟨i, _, rfl⟩ := hx
    exact Nat.mod_lt _ (by decide)

theorem writeOp_WInv (le : Bool) (op : WOp) (st : FileWriter) (bits : List Nat)
    (h : WInv st bits) (hv : opValidB op = true)
    (hal : isByteOp op = true → bits.length % 8 = 0) :
    WInv (writeOp le op st) (bits ++ opBits le op) := by
  cases op with
  | wbit b =>
    have hb : b ≤ 1 := by simpa [opValidB] using hv
    exact write_bit_WInv b st bits h hb
  | wbits v c =>
    show WInv (write_bits v c st) (bits ++ (List.range c).map (get_bit v))
    rw [write_bits_eq_fold]
    refine writeBitFold_WInv _ st bits h ?_
    intro x hx
    obtain ⟨i, _, rfl⟩ := List.mem_map.mp hx
    exact get_bit_le_one v i
  | wbyte b =>
    have hb : b < 256 := by simpa [opValidB] using hv
    exact write_byte_WInv b st bits h (hal rfl) hb
  | wsym s =>
    show WInv (write_symbol s st)
      (bits ++ (List.range s.bit_len).map (get_bit s.encoded_symbol))
    rw [write_symbol_eq_fold]
    refine writeBitFold_WInv _ st bits h ?_
    intro x hx
    obtain ⟨i, _, rfl⟩ := List.mem_map.mp hx
    exact get_bit_le_one _ i
  | wu64 n =>
    show WInv (write_u64 le n st) (bits ++ bitsOfBytes (u64TransmuteBytes le n))
    rw [write_u64_eq_fold]
    exact writeByteFold_WInv _ st bits h (hal rfl)
      (fun x hx => mem_u64TransmuteBytes_lt le n x hx)

theorem writeRun_WInv (le : Bool) :
    ∀ (ops : List WOp) (st : FileWriter) (bits : List Nat),
    WInv st bits → (∀ op ∈ ops, opValidB op = true) →
    opsAlignedB bits.length ops = true →
    WInv (writeRun le ops st) (bits ++ opsBits le ops)
  | [], _, _, h, _, _ => by simpa [writeRun, opsBits] using h
  | op :: ops, st, bits, h, hv, hal => by
    have hal0 := (Bool.and_eq_true _ _).mp hal
    have hal1 : isByteOp op = true → bits.length % 8 = 0 := by
      intro hb
      have h1 := hal0.1
      rw [hb] at h1
      simpa using h1
    have hal2 : opsAlignedB (bits.length + opLen op) ops = true := hal0.2
    have h1 := writeOp_WInv le op st bits h
      (hv op (List.mem_cons_self op ops)) hal1
    have h2 := writeRun_WInv le ops (writeOp le op st) (bits ++ opBits le op) h1
      (fun o ho => hv o (List.mem_cons_of_mem op ho))
      (by rw [List.length_append, opBits_length]; exact hal2)
    show WInv (writeRun le ops (writeOp le op st)) (bits ++ opsBits le (op :: ops))
    rw [show bits ++ opsBits le (op :: ops) =
      (bits ++ opBits le op) ++ opsBits le ops by simp [opsBits]]
    exact h2

theorem finalStream_eq (st : FileWriter) :
    finalStream st = flat st.flushes ++ st.buffer.take (st.bit_position / 8) := by
  show flat (st.flushes ++ [st.buffer.take (st.bit_position / 8)]) = _
  rw [flat_append, flat_singleton]

theorem finalStream_spec (st : FileWriter) (bits : List Nat) (h : WInv st bits)
    (hal : bits.length % 8 = 0) :
    8 * (finalStream st).length = bits.length ∧
      ∀ k, k < bits.length → bitAt (finalStream st) k = nth bits k := by
  obtain ⟨hbuf, hle, hlen, hmat⟩ := h
  have hpos8 : st.bit_position % 8 = 0 := by omega
  have hlen2 : (finalStream st).length =
      (flat st.flushes).length + st.bit_position / 8 := by
    rw [finalStream_eq, List.length_append, List.length_take, hbuf, BUFFER_LEN_eq]
    rw [BUFFER_BIT_LEN_eq] at hle
    omega
  constructor
  · rw [hlen2]
    omega
  · intro k hk
    show get_bit (nth (finalStream st) (k / 8)) (k % 8) = nth bits k
    rw [finalStream_eq]
    have hsame : nth (flat st.flushes ++
        st.buffer.take (st.bit_position / 8)) (k / 8) =
        nth (flat st.flushes ++ st.buffer) (k / 8) := by
      by_cases hlt2 : k / 8 < (flat st.flushes).length
      · rw [nth_append_left _ _ _ hlt2, nth_append_left _ _ _ hlt2]
      · rw [nth_append_ge _ _ _ (by omega), nth_append_ge _ _ _ (by omega),
          nth_take _ _ _ (by omega)]
    rw [hsame]
    exact hmat k

/-! Reader correctness lemmas. -/

theorem read_bit_spec (stream : List Nat) (rpos : Nat)
    (h : rpos < 8 * stream.length) :
    read_bit stream rpos = .ok (bitAt stream rpos, rpos + 1) := by
  simp only [read_bit, bitAt]
  rw [if_pos (by omega : rpos / 8 < stream.length)]

theorem read_bits_spec : ∀ (bs : List Nat) (stream : List Nat) (rpos : Nat),
    rpos + bs.length ≤ 8 * stream.length →
    (∀ m, m < bs.length → bitAt stream (rpos + m) = nth bs m) →
    read_bits stream rpos bs.length = .ok (assembleBase 2 bs, rpos + bs.length)
  | [], stream, rpos, _, _ => by simp [read_bits, assembleBase]
  | b :: bs, stream, rpos, hb, hm => by
    have hlen : (b :: bs).length = bs.length + 1 := by simp
    have h0 : bitAt stream rpos = b := by
      have h1 := hm 0 (by simp)
      simpa using h1
    have hr := read_bit_spec stream rpos (by rw [hlen] at hb; omega)
    have hrec := read_bits_spec bs stream (rpos + 1)
      (by rw [hlen] at hb; omega)
      (fun m hm2 => by
        have h2 := hm (m + 1) (by rw [hlen]; omega)
        have h3 : rpos + (m + 1) = rpos + 1 + m := by omega
        rw [h3] at h2
        simpa using h2)
    show read_bits stream rpos (bs.length + 1) = _
    rw [read_bits, hr, h0]
    dsimp only
    rw [hrec]
    have h4 : rpos + 1 + bs.length = rpos + (bs.length + 1) := by omega
    rw [h4]
    rfl

theorem read_byte_spec (stream : List Nat) (rpos b : Nat)
    (hbound : rpos + 8 ≤ 8 * stream.length) (hb : b < 256)
    (hm : ∀ m, m < 8 → bitAt stream (rpos + m) = get_bit b m) :
    read_byte stream rpos = .ok (b, rpos + 8) := by
  have h1 := read_bits_spec (byteBits b) stream rpos
    (by rw [byteBits_length]; omega)
    (fun m hm2 => by
      rw [byteBits_length] at hm2
      rw [nth_byteBits, if_pos hm2]
      exact hm m hm2)
  rw [byteBits_length] at h1
  have h2 : assembleBase 2 (byteBits b) = b := by
    have h3 := assembleBase_bits 8 b (by omega)
    exact h3
  rw [read_byte, h1, h2]

theorem read_bytes_spec : ∀ (bl : List Nat) (stream : List Nat) (rpos : Nat),
    rpos + 8 * bl.length ≤ 8 * stream.length →
    (∀ x ∈ bl, x < 256) →
    (∀ m, m < 8 * bl.length → bitAt stream (rpos + m) = nth (bitsOfBytes bl) m) →
    read_bytes stream rpos bl.length = .ok (bl, rpos + 8 * bl.length)
  | [], stream, rpos, _, _, _ => by simp [read_bytes]
  | b :: bl, stream, rpos, hbound, hlt, hm => by
    have hlen : (b :: bl).length = bl.length + 1 := by simp
    rw [hlen] at hbound
    have hb := hlt b (List.mem_cons_self b bl)
    have hbyte := read_byte_spec stream rpos b (by omega) hb
      (fun m hm2 => by
        have h2 := hm m (by omega)
        rw [show nth (bitsOfBytes (b :: bl)) m = get_bit b m from by
          show nth (byteBits b ++ bitsOfBytes bl) m = get_bit b m
          rw [nth_append_left _ _ _ (by rw [byteBits_length]; omega),
            nth_byteBits, if_pos hm2]] at h2
        exact h2)
    have hrec := read_bytes_spec bl stream (rpos + 8) (by omega)
      (fun y hy => hlt y (List.mem_cons_of_mem b hy))
      (fun m hm2 => by
        have h2 := hm (8 + m) (by omega)
        have h3 : rpos + (8 + m) = rpos + 8 + m := by omega
        rw [h3] at h2
        rw [show nth (bitsOfBytes (b :: bl)) (8 + m) = nth (bitsOfBytes bl) m from by
          show nth (byteBits b ++ bitsOfBytes bl) (8 + m) = nth (bitsOfBytes bl) m
          rw [nth_append_ge _ _ _ (by rw [byteBits_length]; omega), byteBits_length]
          congr 1
          omega] at h2
        exact h2)
    show read_bytes stream rpos (bl.length + 1) = _
    rw [read_bytes, hbyte]
    dsimp only
    rw [hrec]
    have h4 : rpos + 8 + 8 * bl.length = rpos + 8 * (bl.length + 1) := by omega
    rw [h4]
    rfl

theorem read_u64_spec (le : Bool) (stream : List Nat) (rpos n : Nat)
    (hn : n < 2 ^ 64) (hbound : rpos + 64 ≤ 8 * stream.length)
    (hm : ∀ m, m < 64 →
      bitAt stream (rpos + m) = nth (bitsOfBytes (u64TransmuteBytes le n)) m) :
    read_u64 le stream rpos = .ok (n, rpos + 64) := by
  have hlen8 : (u64TransmuteBytes le n).length = 8 :=
    length_u64TransmuteBytes le n
  have hbytes := read_bytes_spec (u64TransmuteBytes le n) stream rpos
    (by rw [hlen8]; omega)
    (fun x hx => mem_u64TransmuteBytes_lt le n x hx)
    (fun m hm2 => hm m (by rw [hlen8] at hm2; omega))
  rw [hlen8] at hbytes
  have hle : assembleBase 256 ((List.range 8).map fun i => n / 2 ^ (8 * i) % 256) = n := by
    have hconv : ((List.range 8).map fun i => n / 2 ^ (8 * i) % 256) =
        (List.range 8).map fun i => n / 256 ^ i % 256 := by
      apply List.map_congr_left
      intro i _
      rw [show (2 : Nat) ^ (8 * i) = 256 ^ i from by rw [pow_mul]; norm_num]
    rw [hconv, assembleBase_digits]
    rw [show (256 : Nat) ^ 8 = 2 ^ 64 from by norm_num, Nat.mod_eq_of_lt hn]
  have hval : assembleBase 256
      (if le then u64TransmuteBytes le n else (u64TransmuteBytes le n).reverse) = n := by
    cases le with
    | true =>
      show assembleBase 256 (u64TransmuteBytes true n) = n
      unfold u64TransmuteBytes
      simpa using hle
    | false =>
      show assembleBase 256 ((u64TransmuteBytes false n).reverse) = n
      unfold u64TransmuteBytes
      simpa [List.reverse_reverse] using hle
  rw [read_u64, hbytes]
  dsimp only
  rw [hval]

theorem readOp_spec (le : Bool) (op : WOp) (stream : List Nat) (rpos : Nat)
    (hv : opValidB op = true)
    (hbound : rpos + opLen op ≤ 8 * stream.length)
    (hm : ∀ m, m < opLen op → bitAt stream (rpos + m) = nth (opBits le op) m) :
    readOp le op stream rpos = .ok (opValue op, rpos + opLen op) := by
  cases op with
  | wbit b =>
    simp only [opLen] at hbound hm
    simp only [opBits] at hm
    show read_bit stream rpos = .ok (b, rpos + 1)
    rw [read_bit_spec stream rpos (by omega)]
    have h0 : bitAt stream rpos = b := by
      have h1 := hm 0 (by omega)
      simpa [nth] using h1
    rw [h0]
  | wbits v c =>
    have hvc : c ≤ 8 ∧ v < 2 ^ c := by simpa [opValidB] using hv
    simp only [opLen] at hbound hm
    simp only [opBits] at hm
    show read_bits stream rpos c = .ok (v, rpos + c)
    have hb := read_bits_spec ((List.range c).map (get_bit v)) stream rpos
      (by simpa using hbound)
      (fun m hm2 => by
        have h2 : m < c := by simpa using hm2
        exact hm m h2)
    rw [show ((List.range c).map (get_bit v)).length = c from by simp] at hb
    rw [hb, assembleBase_bits c v hvc.2]
  | wbyte b =>
    have hb : b < 256 := by simpa [opValidB] using hv
    simp only [opLen] at hbound hm
    simp only [opBits] at hm
    show read_byte stream rpos = .ok (b, rpos + 8)
    exact read_byte_spec stream rpos b hbound hb
      (fun m hm2 => by
        have h2 := hm m hm2
        rwa [nth_byteBits, if_pos hm2] at h2)
  | wsym s =>
    have hvs : s.encoded_symbol < 2 ^ s.bit_len := by simpa [opValidB] using hv
    simp only [opLen] at hbound hm
    simp only [opBits] at hm
    show read_bits stream rpos s.bit_len = .ok (s.encoded_symbol, rpos + s.bit_len)
    have hb := read_bits_spec
      ((List.range s.bit_len).map (get_bit s.encoded_symbol)) stream rpos
      (by simpa using hbound)
      (fun m hm2 => by
        have h2 : m < s.bit_len := by simpa using hm2
        exact hm m h2)
    rw [show ((List.range s.bit_len).map (get_bit s.encoded_symbol)).length =
      s.bit_len from by simp] at hb
    rw [hb, assembleBase_bits s.bit_len s.encoded_symbol hvs]
  | wu64 n =>
    have hn : n < 2 ^ 64 := by simpa [opValidB] using hv
    simp only [opLen] at hbound hm
    simp only [opBits] at hm
    show read_u64 le stream rpos = .ok (n, rpos + 64)
    exact read_u64_spec le stream rpos n hn hbound hm

theorem readBack_spec (le : Bool) :
    ∀ (ops : List WOp) (stream : List Nat) (rpos : Nat),
    (∀ op ∈ ops, opValidB op = true) →
    rpos + opsLen ops ≤ 8 * stream.length →
    (∀ m, m < opsLen ops → bitAt stream (rpos + m) = nth (opsBits le ops) m) →
    readBack le stream ops rpos = .ok (ops.map opValue)
  | [], stream, rpos, _, _, _ => by simp [readBack]
  | op :: ops, stream, rpos, hv, hbound, hm => by
    simp only [opsLen] at hbound hm
    have hop := readOp_spec le op stream rpos
      (hv op (List.mem_cons_self op ops)) (by omega)
      (fun m hm2 => by
        have h2 := hm m (by omega)
        rwa [show nth (opsBits le (op :: ops)) m = nth (opBits le op) m from by
          show nth (opBits le op ++ opsBits le ops) m = nth (opBits le op) m
          rw [nth_append_left _ _ _ (by rw [opBits_length]; omega)]] at h2)
    have hrec := readBack_spec le ops stream (rpos + opLen op)
      (fun o ho => hv o (List.mem_cons_of_mem op ho))
      (by omega)
      (fun m hm2 => by
        have h2 := hm (opLen op + m) (by omega)
        have h3 : rpos + (opLen op + m) = rpos + opLen op + m := by omega
        rw [h3] at h2
        rwa [show nth (opsBits le (op :: ops)) (opLen op + m) =
            nth (opsBits le ops) m from by
          show nth (opBits le op ++ opsBits le ops) (opLen op + m) =
            nth (opsBits le ops) m
          rw [nth_append_ge _ _ _ (by rw [opBits_length]; omega), opBits_length]
          congr 1
          omega] at h2)
    show readBack le stream (op :: ops) rpos =
      .ok (opValue op :: ops.map opValue)
    rw [readBack, hop]
    dsimp only
    rw [hrec]

/-! Claim C8: the round-trip law. -/

/-- C8 counterexample, two independent failures of the law as claimed:
(a) after a single `write_bit 1`, release flushes no byte at all (the floor
in `persist_buffer`), so the symmetric `read_bit` hits end of source;
(b) `write_byte` at a non-byte-aligned cursor overwrites the byte that
already holds earlier bits, so the sequence write_bits(1,1), write_byte(0),
write_bits(0,7) reads back as [0, 0, 0] instead of [1, 0, 0]. -/
theorem C8_cex :
    readBack true (finalStream (writeRun true [WOp.wbit 1] freshWriter))
      [WOp.wbit 1] 0 = .error () ∧
    readBack true (finalStream (writeRun true
        [WOp.wbits 1 1, WOp.wbyte 0, WOp.wbits 0 7] freshWriter))
      [WOp.wbits 1 1, WOp.wbyte 0, WOp.wbits 0 7] 0 = .ok [0, 0, 0] ∧
    [WOp.wbits 1 1, WOp.wbyte 0, WOp.wbits 0 7].map opValue = [1, 0, 0] ∧
    ([0, 0, 0] : List Nat) ≠ [1, 0, 0] :=
  ⟨rfl, rfl, rfl, by decide⟩

/-- C8 (corrected): the round-trip law holds for canonical arguments
provided every `write_byte`/`write_u64` call happens at a byte-aligned
cursor and the total number of bits written is a multiple of 8: reading the
released byte stream with the symmetric sequence of reader calls (same
parameters, same platform byte order) reproduces every written value
exactly. -/
theorem C8_amended (le : Bool) (ops : List WOp)
    (hv : ∀ op ∈ ops, opValidB op = true)
    (hal : opsAlignedB 0 ops = true)
    (h8 : opsLen ops % 8 = 0) :
    readBack le (finalStream (writeRun le ops freshWriter)) ops 0 =
      .ok (ops.map opValue) := by
  have hW : WInv (writeRun le ops freshWriter) (opsBits le ops) := by
    have h1 := writeRun_WInv le ops freshWriter [] WInv_fresh hv
      (by show opsAlignedB ([] : List Nat).length ops = true; exact hal)
    simpa using h1
  obtain ⟨hf1, hf2⟩ := finalStream_spec _ _ hW
    (by rw [opsBits_length]; exact h8)
  rw [opsBits_length] at hf1
  apply readBack_spec le ops _ 0 hv (by omega)
  intro m hm
  have h2 := hf2 m (by rw [opsBits_length]; omega)
  simpa using h2

/-- C8 witness: the amended round-trip law at a concrete 96-bit sequence
exercising all five operations. -/
theorem C8_witness :
    (∀ op ∈ [WOp.wbit 1, WOp.wbits 5 3, WOp.wbits 0 4, WOp.wbyte 171,
        WOp.wu64 123456789, WOp.wsym ⟨1430, 11⟩, WOp.wbits 0 5],
      opValidB op = true) ∧
    opsAlignedB 0 [WOp.wbit 1, WOp.wbits 5 3, WOp.wbits 0 4, WOp.wbyte 171,
        WOp.wu64 123456789, WOp.wsym ⟨1430, 11⟩, WOp.wbits 0 5] = true ∧
    opsLen [WOp.wbit 1, WOp.wbits 5 3, WOp.wbits 0 4, WOp.wbyte 171,
        WOp.wu64 123456789, WOp.wsym ⟨1430, 11⟩, WOp.wbits 0 5] % 8 = 0 ∧
    readBack true (finalStream (writeRun true
        [WOp.wbit 1, WOp.wbits 5 3, WOp.wbits 0 4, WOp.wbyte 171,
          WOp.wu64 123456789, WOp.wsym ⟨1430, 11⟩, WOp.wbits 0 5] freshWriter))
      [WOp.wbit 1, WOp.wbits 5 3, WOp.wbits 0 4, WOp.wbyte 171,
        WOp.wu64 123456789, WOp.wsym ⟨1430, 11⟩, WOp.wbits 0 5] 0 =
      .ok ([WOp.wbit 1, WOp.wbits 5 3, WOp.wbits 0 4, WOp.wbyte 171,
        WOp.wu64 123456789, WOp.wsym ⟨1430, 11⟩, WOp.wbits 0 5].map opValue) :=
  ⟨by decide, by decide, by decide,
    C8_amended true _ (by decide) (by decide) (by decide)⟩

/-! Claims C3 and C7: buffer boundary and sub-byte write order. -/

theorem place_bit_flushes (b : Nat) (s : FileWriter) :
    (place_bit b s).flushes = s.flushes := by
  by_cases hb : b > 0 <;> simp [place_bit, hb]

theorem place_bit_persistLog (b : Nat) (s : FileWriter) :
    (place_bit b s).persistLog = s.persistLog := by
  by_cases hb : b > 0 <;> simp [place_bit, hb]

theorem place_bit_pos (b : Nat) (s : FileWriter) :
    (place_bit b s).bit_position = s.bit_position + 1 := by
  by_cases hb : b > 0 <;> simp [place_bit, hb]

theorem place_bit_buffer (b : Nat) (s : FileWriter) :
    (place_bit b s).buffer = if b > 0 then
      s.buffer.set (s.bit_position / 8)
        (set_bit (nth s.buffer (s.bit_position / 8)) (s.bit_position % 8))
    else s.buffer := by
  by_cases hb : b > 0 <;> simp [place_bit, hb]

theorem set_bit_zero_zero : set_bit 0 0 = 1 := by decide

theorem writeBitFold_noflush : ∀ (l : List Nat) (st : FileWriter),
    st.bit_position + l.length ≤ BUFFER_BIT_LEN →
    (writeBitFold l st).bit_position = st.bit_position + l.length ∧
    (writeBitFold l st).flushes = st.flushes ∧
    (writeBitFold l st).persistLog = st.persistLog ∧
    (writeBitFold l st).buffer.length = st.buffer.length
  | [], st, _ => by simp [writeBitFold]
  | x :: l, st, h => by
    have hlen : (x :: l).length = l.length + 1 := by simp
    rw [hlen] at h
    have hupd : update_buffer st = st := by
      rw [update_buffer, if_neg (by omega : ¬ st.bit_position ≥ BUFFER_BIT_LEN)]
    have h1 : (write_bit x st).bit_position = st.bit_position + 1 := by
      rw [write_bit, hupd, place_bit_pos]
    have h2 : (write_bit x st).flushes = st.flushes := by
      rw [write_bit, hupd, place_bit_flushes]
    have h3 : (write_bit x st).persistLog = st.persistLog := by
      rw [write_bit, hupd, place_bit_persistLog]
    have h4 : (write_bit x st).buffer.length = st.buffer.length := by
      rw [write_bit, hupd, place_bit_buffer]
      by_cases hx : x > 0 <;> simp [hx]
    obtain ⟨g1, g2, g3, g4⟩ := writeBitFold_noflush l (write_bit x st)
      (by rw [h1]; omega)
    refine ⟨?_, ?_, ?_, ?_⟩
    · show (writeBitFold l (write_bit x st)).bit_position =
        st.bit_position + (x :: l).length
      rw [g1, h1, hlen]
      omega
    · show (writeBitFold l (write_bit x st)).flushes = st.flushes
      rw [g2, h2]
    · show (writeBitFold l (write_bit x st)).persistLog = st.persistLog
      rw [g3, h3]
    · show (writeBitFold l (write_bit x st)).buffer.length = st.buffer.length
      rw [g4, h4]

/-- C3 (confirmed): after exactly `capacity_bits = 32768` bits written via
`write_bit`, no flush has happened and the cursor sits at the end; the next
`write_bit` triggers exactly one flush, of the whole 4096-byte buffer
(before the new bit is placed — the flushed chunk is the old buffer), and
the overflowing bit lands at cursor position 0 of a fresh zeroed buffer. -/
theorem C3_thm (bs : List Nat) (b : Nat) (h : bs.length = 32768) :
    (writeBitFold bs freshWriter).flushes = [] ∧
    (writeBitFold bs freshWriter).bit_position = 32768 ∧
    (writeBitFold bs freshWriter).buffer.length = 4096 ∧
    (write_bit b (writeBitFold bs freshWriter)).flushes =
      [(writeBitFold bs freshWriter).buffer] ∧
    (write_bit b (writeBitFold bs freshWriter)).persistLog = [32768] ∧
    (write_bit b (writeBitFold bs freshWriter)).bit_position = 1 ∧
    (write_bit b (writeBitFold bs freshWriter)).buffer =
      (if b > 0 then (List.replicate 4096 0).set 0 1
       else List.replicate 4096 0) := by
  obtain ⟨g1, g2, g3, g4⟩ := writeBitFold_noflush bs freshWriter
    (by rw [h]; decide)
  have hpos : (writeBitFold bs freshWriter).bit_position = 32768 := by
    rw [g1, h]
    decide
  have hfl : (writeBitFold bs freshWriter).flushes = [] := by
    rw [g2]
    rfl
  have hlog : (writeBitFold bs freshWriter).persistLog = [] := by
    rw [g3]
    rfl
  have hbuflen : (writeBitFold bs freshWriter).buffer.length = 4096 := by
    rw [g4]
    exact List.length_replicate _ _
  have hupd : update_buffer (writeBitFold bs freshWriter) =
      FileWriter.mk (List.replicate BUFFER_LEN 0) 0
        ((writeBitFold bs freshWriter).flushes ++
          [(writeBitFold bs freshWriter).buffer])
        ((writeBitFold bs freshWriter).persistLog ++
          [(writeBitFold bs freshWriter).bit_position]) := by
    rw [update_buffer, if_pos (by rw [hpos]; decide)]
    have htake := take_pos_div_full (writeBitFold bs freshWriter)
      (by rw [hbuflen, BUFFER_LEN_eq]) (by rw [hpos, BUFFER_BIT_LEN_eq])
    simp [persist_buffer, htake]
  refine ⟨hfl, hpos, hbuflen, ?_, ?_, ?_, ?_⟩
  · rw [write_bit, hupd, place_bit_flushes]
    show (writeBitFold bs freshWriter).flushes ++
      [(writeBitFold bs freshWriter).buffer] = _
    rw [hfl]
    simp
  · rw [write_bit, hupd, place_bit_persistLog]
    show (writeBitFold bs freshWriter).persistLog ++
      [(writeBitFold bs freshWriter).bit_position] = _
    rw [hlog, hpos]
    simp
  · rw [write_bit, hupd, place_bit_pos]
  · rw [write_bit, hupd, place_bit_buffer]
    show (if b > 0 then (List.replicate BUFFER_LEN 0).set (0 / 8)
        (set_bit (nth (List.replicate BUFFER_LEN 0) (0 / 8)) (0 % 8))
      else List.replicate BUFFER_LEN 0) = _
    rw [show (0 : Nat) / 8 = 0 from rfl, show (0 : Nat) % 8 = 0 from rfl,
      nth_replicate_zero, set_bit_zero_zero, BUFFER_LEN_eq]

/-- C3 witness: the boundary behavior at 32768 zero bits followed by a one
bit. -/
theorem C3_witness :
    (List.replicate 32768 0).length = 32768 ∧
    ((writeBitFold (List.replicate 32768 0) freshWriter).flushes = [] ∧
      (writeBitFold (List.replicate 32768 0) freshWriter).bit_position = 32768 ∧
      (writeBitFold (List.replicate 32768 0) freshWriter).buffer.length = 4096 ∧
      (write_bit 1 (writeBitFold (List.replicate 32768 0) freshWriter)).flushes =
        [(writeBitFold (List.replicate 32768 0) freshWriter).buffer] ∧
      (write_bit 1 (writeBitFold (List.replicate 32768 0) freshWriter)).persistLog =
        [32768] ∧
      (write_bit 1 (writeBitFold (List.replicate 32768 0) freshWriter)).bit_position =
        1 ∧
      (write_bit 1 (writeBitFold (List.replicate 32768 0) freshWriter)).buffer =
        (if 1 > 0 then (List.replicate 4096 0).set 0 1
         else List.replicate 4096 0)) :=
  ⟨List.length_replicate 32768 0,
    C3_thm (List.replicate 32768 0) 1 (List.length_replicate 32768 0)⟩

/-- C7 (confirmed): `write_bits v count` performs exactly `count` `write_bit`
calls, emitting bit 0 of v first through bit count-1 last, and
`write_symbol` performs exactly `bit_len` `write_bit` calls, emitting bit 0
of the pattern first; from a fresh writer the j-th bit of the materialized
stream is exactly the j-th least-significant bit of the argument. -/
theorem C7_thm (v c : Nat) (s : SymbolCode) (st : FileWriter)
    (hc : c ≤ 8) (hs : s.bit_len ≤ 255) :
    write_bits v c st = writeBitFold ((List.range c).map (get_bit v)) st ∧
    ((List.range c).map (get_bit v)).length = c ∧
    write_symbol s st =
      writeBitFold ((List.range s.bit_len).map (get_bit s.encoded_symbol)) st ∧
    ((List.range s.bit_len).map (get_bit s.encoded_symbol)).length = s.bit_len ∧
    (write_bits v c freshWriter).bit_position = c ∧
    (∀ j, j < c → bitAt (allBytes (write_bits v c freshWriter)) j = get_bit v j) ∧
    (write_symbol s freshWriter).bit_position = s.bit_len ∧
    (∀ j, j < s.bit_len →
      bitAt (allBytes (write_symbol s freshWriter)) j =
        get_bit s.encoded_symbol j) := by
  refine ⟨write_bits_eq_fold v c st, by simp, write_symbol_eq_fold s st,
    by simp, ?_, ?_, ?_, ?_⟩
  · obtain ⟨g1, _, _, _⟩ := writeBitFold_noflush
      ((List.range c).map (get_bit v)) freshWriter
      (by simp [freshWriter, BUFFER_BIT_LEN_eq]; omega)
    rw [write_bits_eq_fold, g1]
    simp [freshWriter]
  · intro j hj
    have hW := writeBitFold_WInv ((List.range c).map (get_bit v)) freshWriter
      [] WInv_fresh
      (fun x hx => by
        obtain ⟨i, _, rfl⟩ := List.mem_map.mp hx
        exact get_bit_le_one v i)
    have h2 := hW.2.2.2 j
    simp only [List.nil_append] at h2
    rw [write_bits_eq_fold, h2, nth_map_range _ c j hj]
  · obtain ⟨g1, _, _, _⟩ := writeBitFold_noflush
      ((List.range s.bit_len).map (get_bit s.encoded_symbol)) freshWriter
      (by simp [freshWriter, BUFFER_BIT_LEN_eq]; omega)
    rw [write_symbol_eq_fold, g1]
    simp [freshWriter]
  · intro j hj
    have hW := writeBitFold_WInv
      ((List.range s.bit_len).map (get_bit s.encoded_symbol)) freshWriter
      [] WInv_fresh
      (fun x hx => by
        obtain ⟨i, _, rfl⟩ := List.mem_map.mp hx
        exact get_bit_le_one _ i)
    have h2 := hW.2.2.2 j
    simp only [List.nil_append] at h2
    rw [write_symbol_eq_fold, h2, nth_map_range _ s.bit_len j hj]

/-- C7 witness: the sub-byte order facts at v = 5, count = 3 and the
11-bit symbol 0b10110010110 of the spec test vector. -/
theorem C7_witness :
    3 ≤ 8 ∧ (SymbolCode.mk 1430 11).bit_len ≤ 255 ∧
    (write_bits 5 3 freshWriter =
        writeBitFold ((List.range 3).map (get_bit 5)) freshWriter ∧
      ((List.range 3).map (get_bit 5)).length = 3 ∧
      write_symbol (SymbolCode.mk 1430 11) freshWriter =
        writeBitFold ((List.range (SymbolCode.mk 1430 11).bit_len).map
          (get_bit (SymbolCode.mk 1430 11).encoded_symbol)) freshWriter ∧
      ((List.range (SymbolCode.mk 1430 11).bit_len).map
        (get_bit (SymbolCode.mk 1430 11).encoded_symbol)).length =
        (SymbolCode.mk 1430 11).bit_len ∧
      (write_bits 5 3 freshWriter).bit_position = 3 ∧
      (∀ j, j < 3 →
        bitAt (allBytes (write_bits 5 3 freshWriter)) j = get_bit 5 j) ∧
      (write_symbol (SymbolCode.mk 1430 11) freshWriter).bit_position =
        (SymbolCode.mk 1430 11).bit_len ∧
      (∀ j, j < (SymbolCode.mk 1430 11).bit_len →
        bitAt (allBytes (write_symbol (SymbolCode.mk 1430 11) freshWriter)) j =
          get_bit (SymbolCode.mk 1430 11).encoded_symbol j)) :=
  ⟨by decide, by decide,
    C7_thm 5 3 (SymbolCode.mk 1430 11) freshWriter (by decide) (by decide)⟩

/-! Claim C4: cursor bounds and flush alignment. -/

theorem PInv_fresh : PInv freshWriter :=
  ⟨List.length_replicate _ _, by decide,
    fun q hq => absurd hq (List.not_mem_nil q)⟩

theorem write_bit_PInv (b : Nat) (st : FileWriter) (h : PInv st) :
    PInv (write_bit b st) ∧
      (write_bit b st).bit_position % 8 = (st.bit_position + 1) % 8 := by
  obtain ⟨hbuf, hle, hlog⟩ := h
  by_cases hfull : st.bit_position ≥ BUFFER_BIT_LEN
  · have hpos : st.bit_position = BUFFER_BIT_LEN := Nat.le_antisymm hle hfull
    have hupd : update_buffer st =
        FileWriter.mk (List.replicate BUFFER_LEN 0) 0
          (st.flushes ++ [st.buffer.take (st.bit_position / 8)])
          (st.persistLog ++ [st.bit_position]) := by
      rw [update_buffer, if_pos hfull]
      rfl
    refine ⟨⟨?_, ?_, ?_⟩, ?_⟩
    · rw [write_bit, hupd, place_bit_buffer]
      by_cases hb : b > 0 <;> simp [hb]
    · rw [write_bit, hupd, place_bit_pos]
      show (0 : Nat) + 1 ≤ BUFFER_BIT_LEN
      decide
    · rw [write_bit, hupd, place_bit_persistLog]
      show ∀ q ∈ st.persistLog ++ [st.bit_position], q % 8 = 0
      intro q hq
      rcases List.mem_append.mp hq with h1 | h1
      · exact hlog q h1
      · rw [List.mem_singleton.mp h1, hpos, BUFFER_BIT_LEN_eq]
    · rw [write_bit, hupd, place_bit_pos]
      show ((0 : Nat) + 1) % 8 = (st.bit_position + 1) % 8
      rw [hpos, BUFFER_BIT_LEN_eq]
  · have hupd : update_buffer st = st := by rw [update_buffer, if_neg hfull]
    refine ⟨⟨?_, ?_, ?_⟩, ?_⟩
    · rw [write_bit, hupd, place_bit_buffer]
      by_cases hb : b > 0 <;> simp [hb, hbuf]
    · rw [write_bit, hupd, place_bit_pos]
      omega
    · rw [write_bit, hupd, place_bit_persistLog]
      exact hlog
    · rw [write_bit, hupd, place_bit_pos]

theorem place_byte_buffer (b : Nat) (s : FileWriter) :
    (place_byte b s).buffer = s.buffer.set (s.bit_position / 8) b := rfl

theorem place_byte_pos (b : Nat) (s : FileWriter) :
    (place_byte b s).bit_position = s.bit_position + 8 := rfl

theorem place_byte_persistLog (b : Nat) (s : FileWriter) :
    (place_byte b s).persistLog = s.persistLog := rfl

theorem write_byte_PInv (b : Nat) (st : FileWriter) (h : PInv st)
    (ha : st.bit_position % 8 = 0) :
    PInv (write_byte b st) ∧ (write_byte b st).bit_position % 8 = 0 := by
  obtain ⟨hbuf, hle, hlog⟩ := h
  by_cases hfull : st.bit_position ≥ BUFFER_BIT_LEN
  · have hpos : st.bit_position = BUFFER_BIT_LEN := Nat.le_antisymm hle hfull
    have hupd : update_buffer st =
        FileWriter.mk (List.replicate BUFFER_LEN 0) 0
          (st.flushes ++ [st.buffer.take (st.bit_position / 8)])
          (st.persistLog ++ [st.bit_position]) := by
      rw [update_buffer, if_pos hfull]
      rfl
    refine ⟨⟨?_, ?_, ?_⟩, ?_⟩
    · rw [write_byte, hupd, place_byte_buffer]
      show ((List.replicate BUFFER_LEN 0).set (0 / 8) b).length = BUFFER_LEN
      simp
    · rw [write_byte, hupd, place_byte_pos]
      show (0 : Nat) + 8 ≤ BUFFER_BIT_LEN
      decide
    · rw [write_byte, hupd, place_byte_persistLog]
      show ∀ q ∈ st.persistLog ++ [st.bit_position], q % 8 = 0
      intro q hq
      rcases List.mem_append.mp hq with h1 | h1
      · exact hlog q h1
      · rw [List.mem_singleton.mp h1, hpos, BUFFER_BIT_LEN_eq]
    · rw [write_byte, hupd, place_byte_pos]
      show ((0 : Nat) + 8) % 8 = 0
      decide
  · have hupd : update_buffer st = st := by rw [update_buffer, if_neg hfull]
    refine ⟨⟨?_, ?_, ?_⟩, ?_⟩
    · rw [write_byte, hupd, place_byte_buffer, List.length_set]
      exact hbuf
    · rw [write_byte, hupd, place_byte_pos]
      rw [BUFFER_BIT_LEN_eq] at hfull ⊢
      omega
    · rw [write_byte, hupd, place_byte_persistLog]
      exact hlog
    · rw [write_byte, hupd, place_byte_pos]
      omega

theorem writeBitFold_PInv : ∀ (l : List Nat) (st : FileWriter), PInv st →
    PInv (writeBitFold l st) ∧
      (writeBitFold l st).bit_position % 8 = (st.bit_position + l.length) % 8
  | [], st, h => by
    refine ⟨by simpa [writeBitFold] using h, ?_⟩
    show st.bit_position % 8 = (st.bit_position + ([] : List Nat).length) % 8
    simp
  | x :: l, st, h => by
    obtain ⟨h1, h2⟩ := write_bit_PInv x st h
    obtain ⟨g1, g2⟩ := writeBitFold_PInv l (write_bit x st) h1
    refine ⟨g1, ?_⟩
    show (writeBitFold l (write_bit x st)).bit_position % 8 =
      (st.bit_position + (x :: l).length) % 8
    have hlen : (x :: l).length = l.length + 1 := by simp
    rw [hlen, g2]
    omega

theorem writeByteFold_PInv : ∀ (bl : List Nat) (st : FileWriter), PInv st →
    st.bit_position % 8 = 0 →
    PInv (writeByteFold bl st) ∧ (writeByteFold bl st).bit_position % 8 = 0
  | [], st, h, ha => ⟨by simpa [writeByteFold] using h, by simpa [writeByteFold] using ha⟩
  | b :: bl, st, h, ha => by
    obtain ⟨h1, h2⟩ := write_byte_PInv b st h ha
    exact writeByteFold_PInv bl (write_byte b st) h1 h2

theorem write_bits_PInv (v c : Nat) (st : FileWriter) (h : PInv st) :
    PInv (write_bits v c st) ∧
      (write_bits v c st).bit_position % 8 = (st.bit_position + c) % 8 := by
  rw [write_bits_eq_fold]
  obtain ⟨h1, h2⟩ := writeBitFold_PInv ((List.range c).map (get_bit v)) st h
  refine ⟨h1, ?_⟩
  rw [h2]
  simp

theorem write_symbol_PInv (s : SymbolCode) (st : FileWriter) (h : PInv st) :
    PInv (write_symbol s st) ∧
      (write_symbol s st).bit_position % 8 = (st.bit_position + s.bit_len) % 8 := by
  rw [write_symbol_eq_fold]
  obtain ⟨h1, h2⟩ := writeBitFold_PInv
    ((List.range s.bit_len).map (get_bit s.encoded_symbol)) st h
  refine ⟨h1, ?_⟩
  rw [h2]
  simp

theorem write_u64_PInv (le : Bool) (n : Nat) (st : FileWriter) (h : PInv st)
    (ha : st.bit_position % 8 = 0) :
    PInv (write_u64 le n st) ∧ (write_u64 le n st).bit_position % 8 = 0 := by
  rw [write_u64_eq_fold]
  exact writeByteFold_PInv _ st h ha

theorem write_block_PInv (le : Bool) (blk : FileBlock) (st : FileWriter)
    (h : PInv st) (ha : st.bit_position % 8 = 0) :
    PInv (write_block le blk st) ∧
      (write_block le blk st).bit_position % 8 = 0 := by
  have hname : blk.filename_rel.foldl (fun s c => write_byte (c % 256) s) st =
      writeByteFold (blk.filename_rel.map fun c => c % 256) st := by
    rw [writeByteFold, List.foldl_map]
  obtain ⟨p1, a1⟩ := writeByteFold_PInv (blk.filename_rel.map fun c => c % 256)
    st h ha
  obtain ⟨p2, a2⟩ := write_byte_PInv 0 _ p1 a1
  obtain ⟨p3, a3⟩ := write_u64_PInv le blk.fbs.tree_bit_size _ p2 a2
  obtain ⟨p4, a4⟩ := write_u64_PInv le blk.fbs.data_bit_size _ p3 a3
  obtain ⟨p5, a5⟩ := write_u64_PInv le blk.file_byte_offset _ p4 a4
  obtain ⟨p6, a6⟩ := write_u64_PInv le blk.og_byte_size _ p5 a5
  constructor
  · simp only [write_block, hname]
    exact p6
  · simp only [write_block, hname]
    exact a6

theorem align_PInv (st : FileWriter) (h : PInv st) :
    PInv (align_to_byte st) ∧ (align_to_byte st).bit_position % 8 = 0 := by
  obtain ⟨hbuf, hle, hlog⟩ := h
  refine ⟨⟨hbuf, ?_, hlog⟩, ?_⟩
  · show (st.bit_position + 7) / 8 * 8 ≤ BUFFER_BIT_LEN
    rw [BUFFER_BIT_LEN_eq] at hle ⊢
    omega
  · show (st.bit_position + 7) / 8 * 8 % 8 = 0
    omega

theorem runA_PInv (le : Bool) : ∀ (ops : List AOp) (st : FileWriter),
    PInv st → aOpsAlignedB (st.bit_position % 8) ops = true →
    PInv (runA le ops st)
  | [], st, h, _ => by simpa [runA] using h
  | op :: ops, st, h, hal => by
    cases op with
    | abit b =>
      obtain ⟨h1, h2⟩ := write_bit_PInv b st h
      have hal1 : aOpsAlignedB ((st.bit_position % 8 + 1) % 8) ops = true := hal
      refine runA_PInv le ops (write_bit b st) h1 ?_
      rw [h2, show (st.bit_position + 1) % 8 = (st.bit_position % 8 + 1) % 8
        from by omega]
      exact hal1
    | abits v c =>
      obtain ⟨h1, h2⟩ := write_bits_PInv v c st h
      have hal1 : aOpsAlignedB ((st.bit_position % 8 + c) % 8) ops = true := hal
      refine runA_PInv le ops (write_bits v c st) h1 ?_
      rw [h2, show (st.bit_position + c) % 8 = (st.bit_position % 8 + c) % 8
        from by omega]
      exact hal1
    | asym s =>
      obtain ⟨h1, h2⟩ := write_symbol_PInv s st h
      have hal1 : aOpsAlignedB ((st.bit_position % 8 + s.bit_len) % 8) ops =
        true := hal
      refine runA_PInv le ops (write_symbol s st) h1 ?_
      rw [h2, show (st.bit_position + s.bit_len) % 8 =
        (st.bit_position % 8 + s.bit_len) % 8 from by omega]
      exact hal1
    | abyte b =>
      have hal0 := (Bool.and_eq_true _ _).mp hal
      have ha : st.bit_position % 8 = 0 := by
        have := hal0.1
        simp at this
        omega
      obtain ⟨h1, h2⟩ := write_byte_PInv b st h ha
      refine runA_PInv le ops (write_byte b st) h1 ?_
      rw [h2]
      exact hal0.2
    | au64 n =>
      have hal0 := (Bool.and_eq_true _ _).mp hal
      have ha : st.bit_position % 8 = 0 := by
        have := hal0.1
        simp at this
        omega
      obtain ⟨h1, h2⟩ := write_u64_PInv le n st h ha
      refine runA_PInv le ops (write_u64 le n st) h1 ?_
      rw [h2]
      exact hal0.2
    | ablock blk =>
      have hal0 := (Bool.and_eq_true _ _).mp hal
      have ha : st.bit_position % 8 = 0 := by
        have := hal0.1
        simp at this
        omega
      obtain ⟨h1, h2⟩ := write_block_PInv le blk st h ha
      refine runA_PInv le ops (write_block le blk st) h1 ?_
      rw [h2]
      exact hal0.2
    | aalign =>
      obtain ⟨h1, h2⟩ := align_PInv st h
      refine runA_PInv le ops (align_to_byte st) h1 ?_
      rw [h2]
      exact hal

/-- C4 (corrected): for sequences in which every whole-byte operation
(`write_byte`, `write_u64`, `write_block`) starts on a byte boundary, the
cursor never exceeds the buffer bit capacity and every flush to the sink
happens at a byte-aligned cursor.  Without the alignment condition both
parts fail (see the counterexample). -/
theorem C4_amended (le : Bool) (ops : List AOp)
    (h : aOpsAlignedB 0 ops = true) :
    (runA le ops freshWriter).bit_position ≤ BUFFER_BIT_LEN ∧
    ∀ q ∈ (runA le ops freshWriter).persistLog, q % 8 = 0 := by
  have h1 := runA_PInv le ops freshWriter PInv_fresh
    (by show aOpsAlignedB (freshWriter.bit_position % 8) ops = true; exact h)
  exact ⟨h1.2.1, h1.2.2⟩

/-- C4 witness: the amended invariant on a small aligned sequence using a
bit write, an alignment and a byte write. -/
theorem C4_witness :
    aOpsAlignedB 0 [AOp.abit 1, AOp.aalign, AOp.abyte 7] = true ∧
    ((runA true [AOp.abit 1, AOp.aalign, AOp.abyte 7] freshWriter).bit_position ≤
        BUFFER_BIT_LEN ∧
      ∀ q ∈ (runA true [AOp.abit 1, AOp.aalign, AOp.abyte 7]
          freshWriter).persistLog, q % 8 = 0) :=
  ⟨by decide, C4_amended true [AOp.abit 1, AOp.aalign, AOp.abyte 7] (by decide)⟩

theorem runA_append (le : Bool) (l₁ l₂ : List AOp) (st : FileWriter) :
    runA le (l₁ ++ l₂) st = runA le l₂ (runA le l₁ st) := by
  simp [runA, List.foldl_append]

theorem runA_replicate_abit (le : Bool) : ∀ (n : Nat) (st : FileWriter),
    runA le (List.replicate n (AOp.abit 0)) st =
      writeBitFold (List.replicate n 0) st
  | 0, _ => rfl
  | n + 1, st => runA_replicate_abit le n (write_bit 0 st)

theorem writeBitFold_zeros : ∀ (n : Nat) (st : FileWriter),
    st.bit_position + n ≤ BUFFER_BIT_LEN →
    writeBitFold (List.replicate n 0) st =
      { st with bit_position := st.bit_position + n }
  | 0, st, _ => rfl
  | n + 1, st, h => by
    have hw : write_bit 0 st = { st with bit_position := st.bit_position + 1 } := by
      rw [write_bit, update_buffer, if_neg (by omega : ¬ st.bit_position ≥ BUFFER_BIT_LEN)]
      simp [place_bit]
    show writeBitFold (List.replicate n 0) (write_bit 0 st) = _
    rw [hw, writeBitFold_zeros n { st with bit_position := st.bit_position + 1 }
      (by show st.bit_position + 1 + n ≤ BUFFER_BIT_LEN; omega)]
    show ({ st with bit_position := st.bit_position + 1 + n } : FileWriter) =
      { st with bit_position := st.bit_position + (n + 1) }
    rw [show st.bit_position + 1 + n = st.bit_position + (n + 1) from by omega]

/-- C4 counterexample: a `write_byte` issued at the non-aligned cursor
32761 pushes the cursor to 32769 > 32768 = 8B, and the flush triggered by
the following `write_byte` happens at the non-byte-aligned cursor 32769 —
not at stream finalization. -/
theorem C4_cex :
    (runA true (List.replicate 32761 (AOp.abit 0) ++ [AOp.abyte 5])
        freshWriter).bit_position = 32769 ∧
    ¬ ((runA true (List.replicate 32761 (AOp.abit 0) ++ [AOp.abyte 5])
        freshWriter).bit_position ≤ BUFFER_BIT_LEN) ∧
    (runA true (List.replicate 32761 (AOp.abit 0) ++ [AOp.abyte 5, AOp.abyte 6])
        freshWriter).persistLog = [32769] ∧
    ¬ ((32769 : Nat) % 8 = 0) := by
  have h0 : runA true (List.replicate 32761 (AOp.abit 0)) freshWriter =
      { freshWriter with bit_position := 32761 } := by
    rw [runA_replicate_abit, writeBitFold_zeros 32761 freshWriter (by decide)]
    show ({ freshWriter with bit_position := freshWriter.bit_position + 32761 } :
      FileWriter) = _
    rw [show freshWriter.bit_position + 32761 = 32761 from by decide]
  have h1 : runA true (List.replicate 32761 (AOp.abit 0) ++ [AOp.abyte 5])
      freshWriter = write_byte 5 { freshWriter with bit_position := 32761 } := by
    rw [runA_append, h0]
    rfl
  have h2 : write_byte 5 { freshWriter with bit_position := 32761 } =
      { freshWriter with
          buffer := freshWriter.buffer.set 4095 5
          bit_position := 32769 } := by
    rw [write_byte, update_buffer,
      if_neg (by decide : ¬ (({ freshWriter with bit_position := 32761 } :
        FileWriter).bit_position ≥ BUFFER_BIT_LEN))]
    rw [place_byte]
    show ({ freshWriter with
      buffer := freshWriter.buffer.set (32761 / 8) 5
      bit_position := 32761 + 8 } : FileWriter) = _
    rw [show (32761 : Nat) / 8 = 4095 from by decide,
      show (32761 : Nat) + 8 = 32769 from by decide]
  refine ⟨?_, ?_, ?_, by decide⟩
  · rw [h1, h2]
  · rw [h1, h2]
    decide
  · have h3 : runA true (List.replicate 32761 (AOp.abit 0) ++
        [AOp.abyte 5, AOp.abyte 6]) freshWriter =
        write_byte 6 (write_byte 5 { freshWriter with bit_position := 32761 }) := by
      rw [show List.replicate 32761 (AOp.abit 0) ++ [AOp.abyte 5, AOp.abyte 6] =
        (List.replicate 32761 (AOp.abit 0) ++ [AOp.abyte 5]) ++ [AOp.abyte 6]
        from (List.append_assoc (List.replicate 32761 (AOp.abit 0))
          [AOp.abyte 5] [AOp.abyte 6]).symm, runA_append, h1]
      rfl
    rw [h3, h2]
    rw [write_byte, update_buffer,
      if_pos (by decide : ({ freshWriter with
        buffer := freshWriter.buffer.set 4095 5
        bit_position := 32769 } : FileWriter).bit_position ≥ BUFFER_BIT_LEN)]
    rw [place_byte_persistLog]
    show ({ freshWriter with
        buffer := freshWriter.buffer.set 4095 5
        bit_position := 32769 } : FileWriter).persistLog ++ [32769] = [32769]
    rfl
